import Mathlib

/-!
Shallow embedding of the portal-router search core (`src/lib.rs`).

The router performs an A*-style best-first search over screeps rooms.
External collaborator types (`RoomName`, `Direction`, `describe_exits`, the
cost callback) are modelled at their interface boundary: a room carries
bounded 2D integer coordinates in `[-128, 127]`, a direction is one of eight
compass values with an inverse and a coordinate offset, connectivity is an
arbitrary function from rooms to lists of exit directions, and the cost
callback is a function from rooms to small naturals with `255` (`u8::MAX`)
as the impassable sentinel.  Machine integers (`u32`) are modelled as `Nat`
with explicit `% 2 ^ 32` where the source performs `u32` addition.
-/

/-- The eight screeps compass directions. -/
inductive Direction where
  | top
  | topRight
  | right
  | bottomRight
  | bottom
  | bottomLeft
  | left
  | topLeft
deriving DecidableEq, Repr

/-- Model of `std::ops::Neg` for `Direction`: rotate by 180 degrees. -/
def Direction.neg : Direction → Direction
  | .top => .bottom
  | .topRight => .bottomLeft
  | .right => .left
  | .bottomRight => .topLeft
  | .bottom => .top
  | .bottomLeft => .topRight
  | .left => .right
  | .topLeft => .bottomRight

/-- Model of `From<Direction> for (i32, i32)`: the coordinate offset of a direction
(y grows southward). -/
def Direction.offset : Direction → Int × Int
  | .top => (0, -1)
  | .topRight => (1, -1)
  | .right => (1, 0)
  | .bottomRight => (1, 1)
  | .bottom => (0, 1)
  | .bottomLeft => (-1, 1)
  | .left => (-1, 0)
  | .topLeft => (-1, -1)

/-- A screeps room name: a pair of bounded coordinates.  The stored fields
are the coordinates shifted into `[0, 255]`; `x_coord`/`y_coord` recover the
signed values in `[-128, 127]`. -/
structure RoomName where
  xr : Fin 256
  yr : Fin 256
deriving DecidableEq, Repr

/-- The signed x coordinate of a room, in `[-128, 127]`. -/
def RoomName.x_coord (r : RoomName) : Int := (r.xr : Int) - 128

/-- The signed y coordinate of a room, in `[-128, 127]`. -/
def RoomName.y_coord (r : RoomName) : Int := (r.yr : Int) - 128

/-- Model of `RoomName::checked_add`: add a coordinate offset, returning `none` when
the result leaves the valid coordinate range (treated by the router as
"neighbor does not exist"). -/
def RoomName.checked_add (r : RoomName) (off : Int × Int) : Option RoomName :=
  if h : -128 ≤ r.x_coord + off.1 ∧ r.x_coord + off.1 ≤ 127 ∧
      -128 ≤ r.y_coord + off.2 ∧ r.y_coord + off.2 ≤ 127 then
    some ⟨⟨(r.x_coord + off.1 + 128).toNat, by omega⟩,
          ⟨(r.y_coord + off.2 + 128).toNat, by omega⟩⟩
  else
    none

instance : Fintype RoomName :=
  Fintype.ofEquiv (Fin 256 × Fin 256)
    { toFun := fun p => ⟨p.1, p.2⟩
      invFun := fun r => (r.xr, r.yr)
      left_inv := fun _ => rfl
      right_inv := fun _ => rfl }

/-- The value `u8::MAX`, the impassable cost sentinel. -/
def u8MAX : Nat := 255

/-- The value `u32::MAX`, the initial value of the heuristic's running minimum. -/
def u32MAX : Nat := 4294967295

/-- The value `2 ^ 32`, the modulus of `u32` arithmetic. -/
def u32Mod : Nat := 4294967296

/-- The `AnyResult` type: the router's single error value. -/
inductive AnyResult where
  | Fail
deriving DecidableEq, Repr

/-- Model of `get_heuristic_cost_to_closest_goal`: lowest Manhattan distance from
`room` to any goal, starting the running minimum at `u32::MAX`. -/
def get_heuristic_cost_to_closest_goal (room : RoomName) (goals : List RoomName) : Nat :=
  goals.foldl
    (fun lowest_cost goal =>
      if (room.x_coord - goal.x_coord).natAbs + (room.y_coord - goal.y_coord).natAbs
          < lowest_cost
      then (room.x_coord - goal.x_coord).natAbs + (room.y_coord - goal.y_coord).natAbs
      else lowest_cost)
    u32MAX

/-- The `PortalRouterOpenSetEntry` record: one frontier entry. -/
structure PortalRouterOpenSetEntry where
  room : RoomName
  g_score : Nat
  f_score : Nat
  open_dir : Option Direction
deriving DecidableEq, Repr

/-- Model of `PortalRouterOpenSetEntry::new`: score a room.  The source computes
`f_score = g_score + heuristic_cost` in `u32` arithmetic, hence the
`% 2 ^ 32`. -/
def PortalRouterOpenSetEntry.new (room : RoomName) (g_score : Nat)
    (open_dir : Option Direction) (goals : List RoomName) : PortalRouterOpenSetEntry :=
  let heuristic_cost := get_heuristic_cost_to_closest_goal room goals
  { room := room
    g_score := g_score
    f_score := (g_score + heuristic_cost) % u32Mod
    open_dir := open_dir }

/-- The visited ledger: an association list from rooms to the optional
direction they were discovered from, newest entry first (`HashMap` modelled
as an insert-once association list). -/
abbrev Ledger := List (RoomName × Option Direction)

/-- Ledger lookup, modelling `HashMap::get`. -/
def lookupLedger : Ledger → RoomName → Option (Option Direction)
  | [], _ => none
  | (r, d) :: rest, q => if q = r then some d else lookupLedger rest q

/-- Ledger key membership, modelling `HashMap::contains_key`. -/
def containsKey (l : Ledger) (q : RoomName) : Bool :=
  (lookupLedger l q).isSome

/-- Model of `HashSet::insert` on the result path, modelled as a duplicate-free list. -/
def pathInsert (path : List RoomName) (r : RoomName) : List RoomName :=
  if r ∈ path then path else r :: path

/-- The backward walk of `resolve_completed_path`, with explicit fuel: the
source's `while let` loop has no intrinsic termination guarantee (`none`
models a walk that has not reached either stop condition within `fuel`
iterations).  When `checked_add` fails the source's `if let` falls through
with the cursor unchanged, which the last branch reproduces. -/
def resolve_loop (visited : Ledger) : Nat → RoomName → List RoomName → Option (List RoomName)
  | 0, _, _ => none
  | fuel + 1, cursor_room, path =>
    match lookupLedger visited cursor_room with
    | none => some path
    | some none => some path
    | some (some search_dir) =>
      match cursor_room.checked_add (Direction.offset (Direction.neg search_dir)) with
      | some next_room => resolve_loop visited fuel next_room (pathInsert path next_room)
      | none => resolve_loop visited fuel cursor_room path

/-- Model of `resolve_completed_path`: walk backwards from `room_name` across the
ledger, collecting the rooms of the path.  The fuel `visited.length + 1`
covers every walk over a well-formed ledger (proved below); `none` reports a
walk that diverges. -/
def resolve_completed_path (room_name : RoomName) (visited : Ledger) : Option (List RoomName) :=
  resolve_loop visited (visited.length + 1) room_name [room_name]

/-- The mutable state of the search loop: the open-set heap (as a list) and
the visited ledger. -/
structure SearchState where
  open_set : List PortalRouterOpenSetEntry
  visited : Ledger
deriving DecidableEq, Repr

/-- Model of `BinaryHeap::pop` with the entry ordering of the source (inverted
comparison on `f_score`, so the popped entry has minimal `f_score`; ties are
broken arbitrarily by the heap, here deterministically). -/
def heap_pop : List PortalRouterOpenSetEntry →
    Option (PortalRouterOpenSetEntry × List PortalRouterOpenSetEntry)
  | [] => none
  | e :: rest =>
    match heap_pop rest with
    | none => some (e, [])
    | some (e', rest') =>
      if e.f_score ≤ e'.f_score then some (e, rest) else some (e', e :: rest')

/-- Result of processing the exit directions of one popped entry: either the
updated state, or a discovered goal together with the ledger at that moment. -/
inductive InnerResult where
  | next (s : SearchState)
  | found (goalRoom : RoomName) (vis : Ledger)
deriving DecidableEq, Repr

/-- The body of the `for direction in describe_exits(..)` loop: skip the
immediate-reversal direction, skip out-of-range and already-visited
neighbors, record fresh neighbors in the ledger, goal-test them before any
cost lookup, and push passable non-goals onto the open set (`u32` addition
on `g_score`). -/
def process_dirs (goals : List RoomName) (cost : RoomName → Nat)
    (entry : PortalRouterOpenSetEntry) : List Direction → SearchState → InnerResult
  | [], s => .next s
  | direction :: rest, s =>
    if some (Direction.neg direction) = entry.open_dir then
      process_dirs goals cost entry rest s
    else
      match entry.room.checked_add (Direction.offset direction) with
      | none => process_dirs goals cost entry rest s
      | some adj_room_name =>
        if containsKey s.visited adj_room_name then
          process_dirs goals cost entry rest s
        else
          let visited' := (adj_room_name, some direction) :: s.visited
          if adj_room_name ∈ goals then
            .found adj_room_name visited'
          else
            let adj_traverse_cost := cost adj_room_name
            if adj_traverse_cost < u8MAX then
              process_dirs goals cost entry rest
                { open_set :=
                    PortalRouterOpenSetEntry.new adj_room_name
                      ((entry.g_score + adj_traverse_cost) % u32Mod)
                      (some direction) goals :: s.open_set,
                  visited := visited' }
            else
              process_dirs goals cost entry rest { s with visited := visited' }

/-- The `while let Some(..) = open_set.pop()` loop of `find_route`, with
explicit fuel (`none` models a run cut off before reaching a return). -/
def find_route_loop (goals : List RoomName) (cost : RoomName → Nat)
    (exits : RoomName → List Direction) :
    Nat → SearchState → Option (Except AnyResult (List RoomName))
  | 0, _ => none
  | fuel + 1, s =>
    match heap_pop s.open_set with
    | none => some (Except.error AnyResult.Fail)
    | some (open_set_entry, rest) =>
      match process_dirs goals cost open_set_entry (exits open_set_entry.room)
          { open_set := rest, visited := s.visited } with
      | .next s' => find_route_loop goals cost exits fuel s'
      | .found goalRoom vis =>
        match resolve_completed_path goalRoom vis with
        | some path => some (Except.ok path)
        | none => none

/-- The initial search state: the origin scored with `g_score = 0` and no
opening direction, and the ledger holding the origin with no direction. -/
def initState (origin : RoomName) (goals : List RoomName) : SearchState :=
  { open_set := [PortalRouterOpenSetEntry.new origin 0 none goals]
    visited := [(origin, none)] }

/-- Model of `PortalRouterOps::find_route`, with explicit fuel for the search loop. -/
def find_route (fuel : Nat) (origin : RoomName) (goals : List RoomName)
    (cost : RoomName → Nat) (exits : RoomName → List Direction) :
    Option (Except AnyResult (List RoomName)) :=
  find_route_loop goals cost exits fuel (initState origin goals)

/-- Build a room from signed coordinates in `[-128, 127]` (test helper). -/
def mkRoom (x y : Int) : RoomName :=
  ⟨⟨(x + 128).toNat % 256, Nat.mod_lt _ (by omega)⟩,
   ⟨(y + 128).toNat % 256, Nat.mod_lt _ (by omega)⟩⟩

/-- The fully connected grid: every room reports all four cardinal exits
(in the enumeration order of `describe_exits`). -/
def fullExits : RoomName → List Direction :=
  fun _ => [.top, .right, .bottom, .left]

/-! ### Basic facts about rooms, directions, the heap and the ledger -/

theorem Direction.neg_neg (d : Direction) : d.neg.neg = d := by
  cases d <;> rfl

theorem Direction.offset_neg (d : Direction) :
    d.neg.offset = (-d.offset.1, -d.offset.2) := by
  cases d <;> rfl

theorem RoomName.x_coord_range (r : RoomName) : -128 ≤ r.x_coord ∧ r.x_coord ≤ 127 := by
  have h := r.xr.isLt
  unfold RoomName.x_coord
  omega

theorem RoomName.y_coord_range (r : RoomName) : -128 ≤ r.y_coord ∧ r.y_coord ≤ 127 := by
  have h := r.yr.isLt
  unfold RoomName.y_coord
  omega

theorem RoomName.eq_of_coords {r r' : RoomName}
    (hx : r.x_coord = r'.x_coord) (hy : r.y_coord = r'.y_coord) : r = r' := by
  cases r with
  | mk xr yr =>
    cases r' with
    | mk xr' yr' =>
      simp only [RoomName.x_coord, RoomName.y_coord] at hx hy
      congr 1
      · exact Fin.ext (by omega)
      · exact Fin.ext (by omega)

theorem RoomName.coords_of_checked_add {r r' : RoomName} {off : Int × Int}
    (h : r.checked_add off = some r') :
    r'.x_coord = r.x_coord + off.1 ∧ r'.y_coord = r.y_coord + off.2 := by
  unfold RoomName.checked_add at h
  split at h
  · rename_i hrange
    cases h
    simp only [RoomName.x_coord, RoomName.y_coord] at hrange ⊢
    omega
  · cases h

theorem RoomName.checked_add_of_range {r : RoomName} {off : Int × Int}
    (h1 : -128 ≤ r.x_coord + off.1) (h2 : r.x_coord + off.1 ≤ 127)
    (h3 : -128 ≤ r.y_coord + off.2) (h4 : r.y_coord + off.2 ≤ 127) :
    ∃ r', r.checked_add off = some r' := by
  unfold RoomName.checked_add
  rw [dif_pos ⟨h1, h2, h3, h4⟩]
  exact ⟨_, rfl⟩

/-- Stepping back through the inverse direction undoes a `checked_add` step:
the skipped immediate-reversal neighbor of an entry is exactly the room the
entry was opened from. -/
theorem RoomName.checked_add_symm {r r' : RoomName} {d : Direction}
    (h : r.checked_add d.offset = some r') :
    r'.checked_add d.neg.offset = some r := by
  obtain ⟨hx, hy⟩ := RoomName.coords_of_checked_add h
  have hr1 := r.x_coord_range
  have hr2 := r.y_coord_range
  rw [Direction.offset_neg]
  obtain ⟨r'', hr''⟩ := @RoomName.checked_add_of_range r' (-d.offset.1, -d.offset.2)
    (by simp only; omega) (by simp only; omega) (by simp only; omega) (by simp only; omega)
  obtain ⟨hx', hy'⟩ := RoomName.coords_of_checked_add hr''
  rw [hr'']
  congr 1
  apply RoomName.eq_of_coords
  · simp only at hx'; omega
  · simp only at hy'; omega

/-! Heap facts -/

theorem heap_pop_eq_none {l : List PortalRouterOpenSetEntry} :
    heap_pop l = none ↔ l = [] := by
  cases l with
  | nil => simp [heap_pop]
  | cons e rest =>
    simp only [heap_pop]
    constructor
    · intro h
      cases hrest : heap_pop rest <;> rw [hrest] at h
      · cases h
      · rename_i p
        cases p
        dsimp only at h
        split at h <;> cases h
    · intro h
      cases h

/-- A successful pop removes exactly one element: the input list is a
permutation of the popped entry consed onto the remainder. -/
theorem heap_pop_perm {l : List PortalRouterOpenSetEntry}
    {e : PortalRouterOpenSetEntry} {rest : List PortalRouterOpenSetEntry}
    (h : heap_pop l = some (e, rest)) : l.Perm (e :: rest) := by
  induction l generalizing e rest with
  | nil => cases h
  | cons a tl ih =>
    simp only [heap_pop] at h
    cases htl : heap_pop tl <;> rw [htl] at h
    · cases h
      have : tl = [] := heap_pop_eq_none.mp htl
      subst this
      exact List.Perm.refl _
    · rename_i p
      cases p with
      | mk e' rest' =>
        dsimp only at h
        split at h
        · cases h
          exact List.Perm.refl _
        · cases h
          have hperm : tl.Perm (e :: rest') := ih htl
          exact (hperm.cons a).trans (List.Perm.swap e a rest')

/-! Ledger facts -/

theorem lookupLedger_mem {l : Ledger} {r : RoomName} {od : Option Direction}
    (h : lookupLedger l r = some od) : (r, od) ∈ l := by
  induction l with
  | nil => cases h
  | cons p rest ih =>
    cases p with
    | mk r0 od0 =>
      simp only [lookupLedger] at h
      split at h
      · rename_i heq
        cases h
        subst heq
        exact List.mem_cons_self _ _
      · exact List.mem_cons_of_mem _ (ih h)

theorem containsKey_of_mem {l : Ledger} {r : RoomName} {od : Option Direction}
    (h : (r, od) ∈ l) : containsKey l r = true := by
  induction l with
  | nil => cases h
  | cons p rest ih =>
    cases p with
    | mk r0 od0 =>
      rcases List.mem_cons.mp h with h1 | h1
      · cases h1
        simp [containsKey, lookupLedger]
      · simp only [containsKey, lookupLedger]
        split
        · rfl
        · exact ih h1

theorem mem_of_containsKey {l : Ledger} {r : RoomName}
    (h : containsKey l r = true) : ∃ od, (r, od) ∈ l := by
  simp only [containsKey, Option.isSome_iff_exists] at h
  obtain ⟨od, hod⟩ := h
  exact ⟨od, lookupLedger_mem hod⟩

theorem containsKey_cons {l : Ledger} {p : RoomName × Option Direction} {r : RoomName} :
    containsKey (p :: l) r = true ↔ r = p.1 ∨ containsKey l r = true := by
  cases p with
  | mk r0 od0 =>
    simp only [containsKey, lookupLedger]
    by_cases heq : r = r0
    · simp [heq]
    · rw [if_neg heq]
      simp [heq]

theorem containsKey_mono {l : Ledger} {p : RoomName × Option Direction} {r : RoomName}
    (h : containsKey l r = true) : containsKey (p :: l) r = true :=
  containsKey_cons.mpr (Or.inr h)

theorem not_containsKey_cons {l : Ledger} {p : RoomName × Option Direction} {r : RoomName}
    (h : containsKey (p :: l) r = false) : r ≠ p.1 ∧ containsKey l r = false := by
  constructor
  · intro heq
    rw [containsKey_cons.mpr (Or.inl heq)] at h
    cases h
  · cases hc : containsKey l r
    · rfl
    · rw [containsKey_mono hc] at h
      cases h

/-! Heuristic facts -/

theorem heuristic_fold_le_init (room : RoomName) (goals : List RoomName) (init : Nat) :
    goals.foldl
      (fun lowest_cost goal =>
        if (room.x_coord - goal.x_coord).natAbs + (room.y_coord - goal.y_coord).natAbs
            < lowest_cost
        then (room.x_coord - goal.x_coord).natAbs + (room.y_coord - goal.y_coord).natAbs
        else lowest_cost) init ≤ init := by
  induction goals generalizing init with
  | nil => exact Nat.le_refl _
  | cons g rest ih =>
    simp only [List.foldl]
    split
    · exact Nat.le_trans (ih _) (Nat.le_of_lt (by assumption))
    · exact ih _

/-- With a nonempty goal set the heuristic is at most `510`, the largest
possible Manhattan distance between two valid rooms. -/
theorem heuristic_le_of_nonempty {goals : List RoomName} (room : RoomName)
    (h : goals ≠ []) : get_heuristic_cost_to_closest_goal room goals ≤ 510 := by
  cases goals with
  | nil => exact absurd rfl h
  | cons g rest =>
    have hx1 := room.x_coord_range
    have hx2 := g.x_coord_range
    have hy1 := room.y_coord_range
    have hy2 := g.y_coord_range
    have hcost : (room.x_coord - g.x_coord).natAbs + (room.y_coord - g.y_coord).natAbs ≤ 510 := by
      omega
    unfold get_heuristic_cost_to_closest_goal
    simp only [List.foldl]
    rw [if_pos (by unfold u32MAX; omega)]
    exact Nat.le_trans (heuristic_fold_le_init _ _ _) hcost

/-! ### C1: cost parametricity — the cost callback is only consulted on
non-goal rooms, so two callbacks agreeing outside the goal set give
identical runs. -/

theorem process_dirs_cost_congr (goals : List RoomName) (cost1 cost2 : RoomName → Nat)
    (hc : ∀ r, r ∉ goals → cost1 r = cost2 r)
    (entry : PortalRouterOpenSetEntry) (dirs : List Direction) (s : SearchState) :
    process_dirs goals cost1 entry dirs s = process_dirs goals cost2 entry dirs s := by
  induction dirs generalizing s with
  | nil => rfl
  | cons d rest ih =>
    simp only [process_dirs]
    split
    · exact ih s
    · cases hadd : entry.room.checked_add d.offset with
      | none => exact ih s
      | some adj =>
        simp only []
        split
        · exact ih s
        · split
          · rfl
          · rename_i hngoal
            rw [hc adj (by simpa using hngoal)]
            split
            · exact ih _
            · exact ih _

theorem find_route_loop_cost_congr (goals : List RoomName) (cost1 cost2 : RoomName → Nat)
    (exits : RoomName → List Direction)
    (hc : ∀ r, r ∉ goals → cost1 r = cost2 r) (fuel : Nat) (s : SearchState) :
    find_route_loop goals cost1 exits fuel s = find_route_loop goals cost2 exits fuel s := by
  induction fuel generalizing s with
  | zero => rfl
  | succ n ih =>
    simp only [find_route_loop]
    cases hpop : heap_pop s.open_set with
    | none => rfl
    | some p =>
      cases p with
      | mk e rest =>
        simp only []
        rw [process_dirs_cost_congr goals cost1 cost2 hc]
        cases hpr : process_dirs goals cost2 e (exits e.room) { open_set := rest, visited := s.visited } with
        | next s' => exact ih s'
        | found g vis => rfl

/-! ### The run invariant -/

/-- A room the search loop will expand if it reaches it: the origin is
expanded unconditionally, any other room only when it is passable and not a
goal (goals return before being pushed, impassable rooms are never pushed). -/
def Expandable (origin : RoomName) (goals : List RoomName) (cost : RoomName → Nat)
    (r : RoomName) : Prop :=
  r = origin ∨ (cost r < u8MAX ∧ r ∉ goals)

instance (origin : RoomName) (goals : List RoomName) (cost : RoomName → Nat) (r : RoomName) :
    Decidable (Expandable origin goals cost r) := by
  unfold Expandable
  infer_instance

/-- Order-independent reachability through the search's expansion rule:
the origin is reachable, and stepping through any exit direction of a
reachable expandable room reaches its in-range neighbor. -/
inductive Reachable (origin : RoomName) (goals : List RoomName) (cost : RoomName → Nat)
    (exits : RoomName → List Direction) : RoomName → Prop where
  | origin : Reachable origin goals cost exits origin
  | step {r r' : RoomName} {d : Direction} :
      Reachable origin goals cost exits r →
      Expandable origin goals cost r →
      d ∈ exits r →
      r.checked_add d.offset = some r' →
      Reachable origin goals cost exits r'

/-- Well-formedness of the ledger: every entry recording a direction has a
predecessor room obtained by stepping through the inverse direction, that
predecessor occurs later in the list (it was inserted earlier), and it is
the origin or passable; entries recording no direction are the origin. -/
def LedgerChain (origin : RoomName) (cost : RoomName → Nat) : Ledger → Prop
  | [] => True
  | (r, none) :: rest => r = origin ∧ LedgerChain origin cost rest
  | (r, some d) :: rest =>
      (∃ p, r.checked_add d.neg.offset = some p ∧ containsKey rest p = true ∧
        (p = origin ∨ cost p < u8MAX)) ∧ LedgerChain origin cost rest

/-- The master invariant of the search loop. -/
structure SearchInv (origin : RoomName) (goals : List RoomName) (cost : RoomName → Nat)
    (exits : RoomName → List Direction) (s : SearchState) : Prop where
  keysNodup : (s.visited.map Prod.fst).Nodup
  originVisited : ((origin, (none : Option Direction)) : RoomName × Option Direction) ∈ s.visited
  noneIsOrigin : ∀ pr ∈ s.visited, pr.2 = (none : Option Direction) → pr.1 = origin
  chain : LedgerChain origin cost s.visited
  visNonGoal : ∀ pr ∈ s.visited, pr.1 = origin ∨ pr.1 ∉ goals
  heapSub : ∀ e ∈ s.open_set, containsKey s.visited e.room = true
  heapNodup : (s.open_set.map PortalRouterOpenSetEntry.room).Nodup
  heapExp : ∀ e ∈ s.open_set, Expandable origin goals cost e.room
  heapReach : ∀ e ∈ s.open_set, Reachable origin goals cost exits e.room
  openDirParent : ∀ e ∈ s.open_set, ∀ d0 : Direction, e.open_dir = some d0 →
      ∃ p, e.room.checked_add d0.neg.offset = some p ∧ containsKey s.visited p = true
  expInv : ∀ r, containsKey s.visited r = true → Expandable origin goals cost r →
      (∃ e ∈ s.open_set, e.room = r) ∨
      (∀ d ∈ exits r, ∀ r', r.checked_add d.offset = some r' →
        containsKey s.visited r' = true)
  gBound : ∀ e ∈ s.open_set, e.g_score ≤ 254 * (s.visited.length - 1)

theorem not_mem_fst_of_not_containsKey {l : Ledger} {r : RoomName}
    (h : containsKey l r = false) : r ∉ l.map Prod.fst := by
  intro hmem
  obtain ⟨pr, hpr, hfst⟩ := List.mem_map.mp hmem
  cases pr with
  | mk r0 od0 =>
    cases hfst
    rw [containsKey_of_mem hpr] at h
    cases h

theorem containsKey_of_mem_fst {l : Ledger} {r : RoomName}
    (h : r ∈ l.map Prod.fst) : containsKey l r = true := by
  obtain ⟨pr, hpr, hfst⟩ := List.mem_map.mp h
  cases pr with
  | mk r0 od0 =>
    cases hfst
    exact containsKey_of_mem hpr

/-- The initial state satisfies the invariant. -/
theorem inv_init (origin : RoomName) (goals : List RoomName) (cost : RoomName → Nat)
    (exits : RoomName → List Direction) :
    SearchInv origin goals cost exits (initState origin goals) := by
  constructor
  · simp [initState]
  · simp [initState]
  · intro pr hpr _
    simp only [initState, List.mem_singleton] at hpr
    subst hpr
    rfl
  · exact ⟨rfl, trivial⟩
  · intro pr hpr
    simp only [initState, List.mem_singleton] at hpr
    subst hpr
    exact Or.inl rfl
  · intro e he
    simp only [initState, List.mem_singleton] at he
    subst he
    simp [PortalRouterOpenSetEntry.new, containsKey, lookupLedger]
  · simp [initState]
  · intro e he
    simp only [initState, List.mem_singleton] at he
    subst he
    exact Or.inl rfl
  · intro e he
    simp only [initState, List.mem_singleton] at he
    subst he
    exact Reachable.origin
  · intro e he d0 hd0
    simp only [initState, List.mem_singleton] at he
    subst he
    simp only [PortalRouterOpenSetEntry.new] at hd0
    cases hd0
  · intro r hr hexp
    left
    refine ⟨PortalRouterOpenSetEntry.new origin 0 none goals, by simp [initState], ?_⟩
    simp only [initState, containsKey, lookupLedger] at hr
    split at hr
    · rename_i heq
      simp [heq, PortalRouterOpenSetEntry.new]
    · cases hr
  · intro e he
    simp only [initState, List.mem_singleton] at he
    subst he
    simp [PortalRouterOpenSetEntry.new, initState]

/-- Auxiliary: discovering a fresh passable non-goal neighbor `adj` of the
popped entry `e0` through direction `d` — recording it in the ledger and
pushing its scored entry — preserves the invariant. -/
theorem inv_insert_push
    {origin : RoomName} {goals : List RoomName} {cost : RoomName → Nat}
    {exits : RoomName → List Direction}
    {e0 : PortalRouterOpenSetEntry} {opens : List PortalRouterOpenSetEntry}
    {vis : Ledger} {adj : RoomName} {d : Direction}
    (hinv : SearchInv origin goals cost exits { open_set := e0 :: opens, visited := vis })
    (hadd : e0.room.checked_add d.offset = some adj)
    (hd : d ∈ exits e0.room)
    (hfresh : containsKey vis adj = false)
    (hngoal : adj ∉ goals)
    (hc : cost adj < u8MAX) :
    SearchInv origin goals cost exits
      { open_set := e0 ::
          PortalRouterOpenSetEntry.new adj ((e0.g_score + cost adj) % u32Mod)
            (some d) goals :: opens,
        visited := (adj, some d) :: vis } := by
  have he0mem : e0 ∈ e0 :: opens := List.mem_cons_self _ _
  have he0vis : containsKey vis e0.room = true := hinv.heapSub e0 he0mem
  have he0exp : Expandable origin goals cost e0.room := hinv.heapExp e0 he0mem
  have hpar : adj.checked_add d.neg.offset = some e0.room := RoomName.checked_add_symm hadd
  have hpass : e0.room = origin ∨ cost e0.room < u8MAX := by
    rcases he0exp with h | h
    · exact Or.inl h
    · exact Or.inr h.1
  have hadjne : ∀ e ∈ e0 :: opens, e.room ≠ adj := by
    intro e he heq
    have := hinv.heapSub e he
    rw [heq] at this
    rw [this] at hfresh
    cases hfresh
  have hlen : 1 ≤ vis.length := by
    have := hinv.originVisited
    cases hv : vis with
    | nil => rw [hv] at this; cases this
    | cons a b => simp [hv]
  constructor
  · exact List.nodup_cons.mpr ⟨not_mem_fst_of_not_containsKey hfresh, hinv.keysNodup⟩
  · exact List.mem_cons_of_mem _ hinv.originVisited
  · intro pr hpr h2
    rcases List.mem_cons.mp hpr with h | h
    · rw [h] at h2; cases h2
    · exact hinv.noneIsOrigin pr h h2
  · exact ⟨⟨e0.room, hpar, he0vis, hpass⟩, hinv.chain⟩
  · intro pr hpr
    rcases List.mem_cons.mp hpr with h | h
    · rw [h]; exact Or.inr hngoal
    · exact hinv.visNonGoal pr h
  · intro e he
    rcases List.mem_cons.mp he with h | h
    · rw [h]; exact containsKey_mono he0vis
    · rcases List.mem_cons.mp h with h | h
      · rw [h]
        simp [PortalRouterOpenSetEntry.new, containsKey, lookupLedger]
      · exact containsKey_mono (hinv.heapSub e (List.mem_cons_of_mem _ h))
  · have hmap : (e0 :: opens).map PortalRouterOpenSetEntry.room =
        e0.room :: opens.map PortalRouterOpenSetEntry.room := rfl
    have hold := hinv.heapNodup
    rw [hmap] at hold
    have hnotin : e0.room ∉ opens.map PortalRouterOpenSetEntry.room :=
      (List.nodup_cons.mp hold).1
    have htail : (opens.map PortalRouterOpenSetEntry.room).Nodup :=
      (List.nodup_cons.mp hold).2
    show (e0.room :: adj :: opens.map PortalRouterOpenSetEntry.room).Nodup
    refine List.nodup_cons.mpr ⟨?_, List.nodup_cons.mpr ⟨?_, htail⟩⟩
    · intro hmem
      rcases List.mem_cons.mp hmem with h | h
      · exact hadjne e0 he0mem h
      · exact hnotin h
    · intro hmem
      obtain ⟨e, he, heq⟩ := List.mem_map.mp hmem
      exact hadjne e (List.mem_cons_of_mem _ he) heq
  · intro e he
    rcases List.mem_cons.mp he with h | h
    · rw [h]; exact he0exp
    · rcases List.mem_cons.mp h with h | h
      · rw [h]
        show Expandable origin goals cost adj
        exact Or.inr ⟨hc, hngoal⟩
      · exact hinv.heapExp e (List.mem_cons_of_mem _ h)
  · intro e he
    rcases List.mem_cons.mp he with h | h
    · rw [h]; exact hinv.heapReach e0 he0mem
    · rcases List.mem_cons.mp h with h | h
      · rw [h]
        show Reachable origin goals cost exits adj
        exact Reachable.step (hinv.heapReach e0 he0mem) he0exp hd hadd
      · exact hinv.heapReach e (List.mem_cons_of_mem _ h)
  · intro e he d0 hd0
    rcases List.mem_cons.mp he with h | h
    · rw [h] at hd0 ⊢
      obtain ⟨p, hp1, hp2⟩ := hinv.openDirParent e0 he0mem d0 hd0
      exact ⟨p, hp1, containsKey_mono hp2⟩
    · rcases List.mem_cons.mp h with h | h
      · rw [h] at hd0 ⊢
        simp only [PortalRouterOpenSetEntry.new] at hd0
        cases hd0
        exact ⟨e0.room, hpar, containsKey_mono he0vis⟩
      · obtain ⟨p, hp1, hp2⟩ := hinv.openDirParent e (List.mem_cons_of_mem _ h) d0 hd0
        exact ⟨p, hp1, containsKey_mono hp2⟩
  · intro r hr hexp
    rcases containsKey_cons.mp hr with h | h
    · left
      refine ⟨PortalRouterOpenSetEntry.new adj ((e0.g_score + cost adj) % u32Mod)
        (some d) goals, ?_, ?_⟩
      · exact List.mem_cons_of_mem _ (List.mem_cons_self _ _)
      · rw [h]; rfl
    · rcases hinv.expInv r h hexp with ⟨e, he, heq⟩ | hcov
      · left
        refine ⟨e, ?_, heq⟩
        rcases List.mem_cons.mp he with h1 | h1
        · rw [h1]; exact List.mem_cons_self _ _
        · exact List.mem_cons_of_mem _ (List.mem_cons_of_mem _ h1)
      · right
        intro d' hd' r' hadd'
        exact containsKey_mono (hcov d' hd' r' hadd')
  · intro e he
    have hglen : ((adj, some d) :: vis).length = vis.length + 1 := rfl
    rcases List.mem_cons.mp he with h | h
    · rw [h]
      have hgb : e0.g_score ≤ 254 * (vis.length - 1) := hinv.gBound e0 he0mem
      rw [hglen]
      omega
    · rcases List.mem_cons.mp h with h | h
      · rw [h]
        show (e0.g_score + cost adj) % u32Mod ≤ _
        have hmod : (e0.g_score + cost adj) % u32Mod ≤ e0.g_score + cost adj :=
          Nat.mod_le _ _
        have hg0 : e0.g_score ≤ 254 * (vis.length - 1) := hinv.gBound e0 he0mem
        have hcc : cost adj < 255 := hc
        rw [hglen]
        omega
      · have hgb : e.g_score ≤ 254 * (vis.length - 1) :=
          hinv.gBound e (List.mem_cons_of_mem _ h)
        rw [hglen]
        omega

/-- Auxiliary: discovering a fresh impassable non-goal neighbor — recorded
in the ledger but not pushed — preserves the invariant. -/
theorem inv_insert_nopush
    {origin : RoomName} {goals : List RoomName} {cost : RoomName → Nat}
    {exits : RoomName → List Direction}
    {e0 : PortalRouterOpenSetEntry} {opens : List PortalRouterOpenSetEntry}
    {vis : Ledger} {adj : RoomName} {d : Direction}
    (hinv : SearchInv origin goals cost exits { open_set := e0 :: opens, visited := vis })
    (hadd : e0.room.checked_add d.offset = some adj)
    (hfresh : containsKey vis adj = false)
    (hngoal : adj ∉ goals)
    (hc : ¬ cost adj < u8MAX) :
    SearchInv origin goals cost exits
      { open_set := e0 :: opens, visited := (adj, some d) :: vis } := by
  have he0mem : e0 ∈ e0 :: opens := List.mem_cons_self _ _
  have he0vis : containsKey vis e0.room = true := hinv.heapSub e0 he0mem
  have he0exp : Expandable origin goals cost e0.room := hinv.heapExp e0 he0mem
  have hpar : adj.checked_add d.neg.offset = some e0.room := RoomName.checked_add_symm hadd
  have hpass : e0.room = origin ∨ cost e0.room < u8MAX := by
    rcases he0exp with h | h
    · exact Or.inl h
    · exact Or.inr h.1
  have hadjnorig : adj ≠ origin := by
    intro heq
    rw [heq] at hfresh
    rw [containsKey_of_mem hinv.originVisited] at hfresh
    cases hfresh
  constructor
  · exact List.nodup_cons.mpr ⟨not_mem_fst_of_not_containsKey hfresh, hinv.keysNodup⟩
  · exact List.mem_cons_of_mem _ hinv.originVisited
  · intro pr hpr h2
    rcases List.mem_cons.mp hpr with h | h
    · rw [h] at h2; cases h2
    · exact hinv.noneIsOrigin pr h h2
  · exact ⟨⟨e0.room, hpar, he0vis, hpass⟩, hinv.chain⟩
  · intro pr hpr
    rcases List.mem_cons.mp hpr with h | h
    · rw [h]; exact Or.inr hngoal
    · exact hinv.visNonGoal pr h
  · intro e he
    exact containsKey_mono (hinv.heapSub e he)
  · exact hinv.heapNodup
  · exact hinv.heapExp
  · exact hinv.heapReach
  · intro e he d0 hd0
    obtain ⟨p, hp1, hp2⟩ := hinv.openDirParent e he d0 hd0
    exact ⟨p, hp1, containsKey_mono hp2⟩
  · intro r hr hexp
    rcases containsKey_cons.mp hr with h | h
    · exfalso
      rcases hexp with h1 | h1
      · rw [h] at h1; exact hadjnorig h1
      · rw [h] at h1; exact hc h1.1
    · rcases hinv.expInv r h hexp with ⟨e, he, heq⟩ | hcov
      · exact Or.inl ⟨e, he, heq⟩
      · right
        intro d' hd' r' hadd'
        exact containsKey_mono (hcov d' hd' r' hadd')
  · intro e he
    have hgb : e.g_score ≤ 254 * (vis.length - 1) := hinv.gBound e he
    have hglen : ((adj, some d) :: vis).length = vis.length + 1 := rfl
    rw [hglen]
    omega

/-- Processing any suffix of the popped entry's exit directions: if the loop
body finishes without finding a goal, the invariant (of the virtual state
still carrying the popped entry) is preserved, the ledger only grows, and
every in-range neighbor through a processed direction ends up visited. -/
theorem process_dirs_next_inv
    {origin : RoomName} {goals : List RoomName} {cost : RoomName → Nat}
    {exits : RoomName → List Direction}
    {e0 : PortalRouterOpenSetEntry} {dirs : List Direction} {s s' : SearchState}
    (hrun : process_dirs goals cost e0 dirs s = .next s')
    (hinv : SearchInv origin goals cost exits
      { open_set := e0 :: s.open_set, visited := s.visited })
    (hdirs : ∀ d ∈ dirs, d ∈ exits e0.room) :
    SearchInv origin goals cost exits
      { open_set := e0 :: s'.open_set, visited := s'.visited } ∧
    (∀ r, containsKey s.visited r = true → containsKey s'.visited r = true) ∧
    (∀ d ∈ dirs, ∀ r', e0.room.checked_add d.offset = some r' →
      containsKey s'.visited r' = true) := by
  induction dirs generalizing s with
  | nil =>
    cases hrun
    exact ⟨hinv, fun r h => h, fun d hd => absurd hd (List.not_mem_nil d)⟩
  | cons d rest ih =>
    have hd0 : d ∈ exits e0.room := hdirs d (List.mem_cons_self _ _)
    have hdrest : ∀ d' ∈ rest, d' ∈ exits e0.room :=
      fun d' hd' => hdirs d' (List.mem_cons_of_mem _ hd')
    simp only [process_dirs] at hrun
    split at hrun
    · -- immediate-reversal skip
      rename_i hskip
      obtain ⟨hinv', hmono, hcov⟩ := ih hrun hinv hdrest
      refine ⟨hinv', hmono, ?_⟩
      intro d' hd' r' hadd'
      rcases List.mem_cons.mp hd' with h | h
      · subst h
        obtain ⟨p, hp1, hp2⟩ :=
          hinv.openDirParent e0 (List.mem_cons_self _ _) d'.neg hskip.symm
        rw [Direction.neg_neg] at hp1
        cases Option.some.inj (hp1.symm.trans hadd')
        exact hmono _ hp2
      · exact hcov d' h r' hadd'
    · -- not the reversal direction: inspect the neighbor
      cases hadd : e0.room.checked_add d.offset with
      | none =>
        rw [hadd] at hrun
        obtain ⟨hinv', hmono, hcov⟩ := ih hrun hinv hdrest
        refine ⟨hinv', hmono, ?_⟩
        intro d' hd' r' hadd'
        rcases List.mem_cons.mp hd' with h | h
        · subst h
          rw [hadd] at hadd'
          cases hadd'
        · exact hcov d' h r' hadd'
      | some adj =>
        rw [hadd] at hrun
        simp only [] at hrun
        split at hrun
        · -- already visited
          rename_i hvisited
          obtain ⟨hinv', hmono, hcov⟩ := ih hrun hinv hdrest
          refine ⟨hinv', hmono, ?_⟩
          intro d' hd' r' hadd'
          rcases List.mem_cons.mp hd' with h | h
          · subst h
            cases Option.some.inj (hadd.symm.trans hadd')
            exact hmono _ hvisited
          · exact hcov d' h r' hadd'
        · -- fresh neighbor
          rename_i hnotvis
          have hfresh : containsKey s.visited adj = false := by
            revert hnotvis
            cases containsKey s.visited adj <;> simp
          split at hrun
          · -- goal discovered: contradicts a `.next` result
            cases hrun
          · rename_i hngoal
            split at hrun
            · -- passable: push
              rename_i hc
              have hinv2 := inv_insert_push hinv hadd hd0 hfresh hngoal hc
              obtain ⟨hinv', hmono, hcov⟩ := ih hrun hinv2 hdrest
              have hmono' : ∀ r, containsKey s.visited r = true →
                  containsKey s'.visited r = true :=
                fun r h => hmono r (containsKey_mono h)
              refine ⟨hinv', hmono', ?_⟩
              intro d' hd' r' hadd'
              rcases List.mem_cons.mp hd' with h | h
              · subst h
                cases Option.some.inj (hadd.symm.trans hadd')
                exact hmono _ (containsKey_cons.mpr (Or.inl rfl))
              · exact hcov d' h r' hadd'
            · -- impassable: record only
              rename_i hc
              have hinv2 := inv_insert_nopush hinv hadd hfresh hngoal hc
              obtain ⟨hinv', hmono, hcov⟩ := ih hrun hinv2 hdrest
              have hmono' : ∀ r, containsKey s.visited r = true →
                  containsKey s'.visited r = true :=
                fun r h => hmono r (containsKey_mono h)
              refine ⟨hinv', hmono', ?_⟩
              intro d' hd' r' hadd'
              rcases List.mem_cons.mp hd' with h | h
              · subst h
                cases Option.some.inj (hadd.symm.trans hadd')
                exact hmono _ (containsKey_cons.mpr (Or.inl rfl))
              · exact hcov d' h r' hadd'

/-- When processing the exit directions finds a goal, the goal was a fresh
in-range neighbor of the popped entry through one of the processed
directions, the returned ledger is the mid-loop ledger extended with the
goal, and the invariant held at that moment. -/
theorem process_dirs_found_spec
    {origin : RoomName} {goals : List RoomName} {cost : RoomName → Nat}
    {exits : RoomName → List Direction}
    {e0 : PortalRouterOpenSetEntry} {dirs : List Direction} {s : SearchState}
    {g : RoomName} {vis' : Ledger}
    (hrun : process_dirs goals cost e0 dirs s = .found g vis')
    (hinv : SearchInv origin goals cost exits
      { open_set := e0 :: s.open_set, visited := s.visited })
    (hdirs : ∀ d ∈ dirs, d ∈ exits e0.room) :
    ∃ (d : Direction) (sm : SearchState),
      SearchInv origin goals cost exits
        { open_set := e0 :: sm.open_set, visited := sm.visited } ∧
      (∀ r, containsKey s.visited r = true → containsKey sm.visited r = true) ∧
      vis' = (g, some d) :: sm.visited ∧
      containsKey sm.visited g = false ∧
      g ∈ goals ∧
      d ∈ exits e0.room ∧
      e0.room.checked_add d.offset = some g := by
  induction dirs generalizing s with
  | nil => cases hrun
  | cons d rest ih =>
    have hd0 : d ∈ exits e0.room := hdirs d (List.mem_cons_self _ _)
    have hdrest : ∀ d' ∈ rest, d' ∈ exits e0.room :=
      fun d' hd' => hdirs d' (List.mem_cons_of_mem _ hd')
    simp only [process_dirs] at hrun
    split at hrun
    · exact ih hrun hinv hdrest
    · cases hadd : e0.room.checked_add d.offset with
      | none =>
        rw [hadd] at hrun
        exact ih hrun hinv hdrest
      | some adj =>
        rw [hadd] at hrun
        simp only [] at hrun
        split at hrun
        · exact ih hrun hinv hdrest
        · rename_i hnotvis
          have hfresh : containsKey s.visited adj = false := by
            revert hnotvis
            cases containsKey s.visited adj <;> simp
          split at hrun
          · -- the goal branch
            rename_i hgoal
            cases hrun
            exact ⟨d, s, hinv, fun r h => h, rfl, hfresh, hgoal, hd0, hadd⟩
          · rename_i hngoal
            split at hrun
            · rename_i hc
              have hinv2 := inv_insert_push hinv hadd hd0 hfresh hngoal hc
              obtain ⟨d', sm, h1, h2, h3, h4, h5, h6, h7⟩ := ih hrun hinv2 hdrest
              exact ⟨d', sm, h1,
                fun r h => h2 r (containsKey_mono h), h3, h4, h5, h6, h7⟩
            · rename_i hc
              have hinv2 := inv_insert_nopush hinv hadd hfresh hngoal hc
              obtain ⟨d', sm, h1, h2, h3, h4, h5, h6, h7⟩ := ih hrun hinv2 hdrest
              exact ⟨d', sm, h1,
                fun r h => h2 r (containsKey_mono h), h3, h4, h5, h6, h7⟩

/-- The invariant only depends on the heap's entries, not their arrangement. -/
theorem inv_perm
    {origin : RoomName} {goals : List RoomName} {cost : RoomName → Nat}
    {exits : RoomName → List Direction} {s : SearchState}
    {l' : List PortalRouterOpenSetEntry}
    (hinv : SearchInv origin goals cost exits s)
    (hperm : s.open_set.Perm l') :
    SearchInv origin goals cost exits { open_set := l', visited := s.visited } := by
  constructor
  · exact hinv.keysNodup
  · exact hinv.originVisited
  · exact hinv.noneIsOrigin
  · exact hinv.chain
  · exact hinv.visNonGoal
  · intro e he
    exact hinv.heapSub e (hperm.mem_iff.mpr he)
  · exact ((hperm.map PortalRouterOpenSetEntry.room).nodup_iff).mp hinv.heapNodup
  · intro e he
    exact hinv.heapExp e (hperm.mem_iff.mpr he)
  · intro e he
    exact hinv.heapReach e (hperm.mem_iff.mpr he)
  · intro e he d0 hd0
    exact hinv.openDirParent e (hperm.mem_iff.mpr he) d0 hd0
  · intro r hr hexp
    rcases hinv.expInv r hr hexp with ⟨e, he, heq⟩ | hcov
    · exact Or.inl ⟨e, hperm.mem_iff.mp he, heq⟩
    · exact Or.inr hcov
  · intro e he
    exact hinv.gBound e (hperm.mem_iff.mpr he)

/-- Removing the popped entry from the heap preserves the invariant once all
of its in-range neighbors are recorded in the ledger. -/
theorem inv_drop_head
    {origin : RoomName} {goals : List RoomName} {cost : RoomName → Nat}
    {exits : RoomName → List Direction}
    {e0 : PortalRouterOpenSetEntry} {opens : List PortalRouterOpenSetEntry} {vis : Ledger}
    (hinv : SearchInv origin goals cost exits { open_set := e0 :: opens, visited := vis })
    (hcov : ∀ d ∈ exits e0.room, ∀ r', e0.room.checked_add d.offset = some r' →
      containsKey vis r' = true) :
    SearchInv origin goals cost exits { open_set := opens, visited := vis } := by
  constructor
  · exact hinv.keysNodup
  · exact hinv.originVisited
  · exact hinv.noneIsOrigin
  · exact hinv.chain
  · exact hinv.visNonGoal
  · intro e he
    exact hinv.heapSub e (List.mem_cons_of_mem _ he)
  · exact (List.nodup_cons.mp hinv.heapNodup).2
  · intro e he
    exact hinv.heapExp e (List.mem_cons_of_mem _ he)
  · intro e he
    exact hinv.heapReach e (List.mem_cons_of_mem _ he)
  · intro e he d0 hd0
    exact hinv.openDirParent e (List.mem_cons_of_mem _ he) d0 hd0
  · intro r hr hexp
    rcases hinv.expInv r hr hexp with ⟨e, he, heq⟩ | hcov'
    · rcases List.mem_cons.mp he with h | h
      · right
        rw [← heq, h]
        exact hcov
      · exact Or.inl ⟨e, h, heq⟩
    · exact Or.inr hcov'
  · intro e he
    exact hinv.gBound e (List.mem_cons_of_mem _ he)

/-- One iteration of the search loop that continues (pop plus neighbor
processing without finding a goal). -/
inductive RunStep (goals : List RoomName) (cost : RoomName → Nat)
    (exits : RoomName → List Direction) : SearchState → SearchState → Prop where
  | mk {s : SearchState} {e0 : PortalRouterOpenSetEntry}
      {rest : List PortalRouterOpenSetEntry} {s' : SearchState} :
      heap_pop s.open_set = some (e0, rest) →
      process_dirs goals cost e0 (exits e0.room)
        { open_set := rest, visited := s.visited } = .next s' →
      RunStep goals cost exits s s'

/-- States the search loop can pass through, starting anywhere. -/
def RunReachFrom (goals : List RoomName) (cost : RoomName → Nat)
    (exits : RoomName → List Direction) : SearchState → SearchState → Prop :=
  Relation.ReflTransGen (RunStep goals cost exits)

/-- States the search loop can pass through when launched by `find_route`. -/
def RunReach (origin : RoomName) (goals : List RoomName) (cost : RoomName → Nat)
    (exits : RoomName → List Direction) (s : SearchState) : Prop :=
  RunReachFrom goals cost exits (initState origin goals) s

/-- One continuing iteration preserves the invariant. -/
theorem inv_run_step
    {origin : RoomName} {goals : List RoomName} {cost : RoomName → Nat}
    {exits : RoomName → List Direction} {s s' : SearchState}
    (hinv : SearchInv origin goals cost exits s)
    (hstep : RunStep goals cost exits s s') :
    SearchInv origin goals cost exits s' := by
  cases hstep with
  | mk hpop hproc =>
    rename_i e0 rest
    have hperm := heap_pop_perm hpop
    have hinvV : SearchInv origin goals cost exits
        { open_set := e0 :: rest, visited := s.visited } := inv_perm hinv hperm
    obtain ⟨hinv', _, hcov⟩ :=
      process_dirs_next_inv hproc hinvV (fun d hd => hd)
    exact inv_drop_head hinv' hcov

/-- Every state reachable by `find_route`'s loop satisfies the invariant. -/
theorem runReach_inv
    {origin : RoomName} {goals : List RoomName} {cost : RoomName → Nat}
    {exits : RoomName → List Direction} {s : SearchState}
    (h : RunReach origin goals cost exits s) :
    SearchInv origin goals cost exits s := by
  induction h with
  | refl => exact inv_init origin goals cost exits
  | tail _ hstep ih => exact inv_run_step ih hstep

/-! ### Path reconstruction over well-formed ledgers -/

/-- Position of the first entry with the given key (used as a termination
measure: a well-formed ledger's backpointers always move to later
positions, i.e. to entries inserted earlier). -/
def keyRank : Ledger → RoomName → Nat
  | [], _ => 0
  | (r0, _) :: rest, q => if q = r0 then 0 else keyRank rest q + 1

theorem keyRank_lt_length {l : Ledger} {r : RoomName}
    (h : containsKey l r = true) : keyRank l r < l.length := by
  induction l with
  | nil => simp [containsKey, lookupLedger] at h
  | cons p rest ih =>
    cases p with
    | mk r0 od0 =>
      simp only [keyRank]
      by_cases heq : r = r0
      · rw [if_pos heq]
        simp
      · rw [if_neg heq]
        simp only [containsKey, lookupLedger, if_neg heq] at h
        have := ih h
        simp only [List.length_cons]
        omega

theorem mem_pathInsert_self (acc : List RoomName) (r : RoomName) : r ∈ pathInsert acc r := by
  unfold pathInsert
  split
  · assumption
  · exact List.mem_cons_self _ _

theorem mem_pathInsert_of_mem {acc : List RoomName} {x : RoomName} (r : RoomName)
    (h : x ∈ acc) : x ∈ pathInsert acc r := by
  unfold pathInsert
  split
  · exact h
  · exact List.mem_cons_of_mem _ h

theorem mem_pathInsert_elim {acc : List RoomName} {x r : RoomName}
    (h : x ∈ pathInsert acc r) : x ∈ acc ∨ x = r := by
  unfold pathInsert at h
  split at h
  · exact Or.inl h
  · rcases List.mem_cons.mp h with h | h
    · exact Or.inr h
    · exact Or.inl h

/-- Backpointer extraction: in a well-formed ledger with distinct keys, an
entry recording direction `d` has a predecessor strictly later in the list
that is the origin or passable. -/
theorem chain_extract {origin : RoomName} {cost : RoomName → Nat} {l : Ledger}
    (hchain : LedgerChain origin cost l)
    (hnodup : (l.map Prod.fst).Nodup) :
    ∀ {r : RoomName} {d : Direction}, lookupLedger l r = some (some d) →
      ∃ p, r.checked_add d.neg.offset = some p ∧ containsKey l p = true ∧
        keyRank l r < keyRank l p ∧ (p = origin ∨ cost p < u8MAX) := by
  induction l with
  | nil => intro r d h; cases h
  | cons pr rest ih =>
    intro r d h
    cases pr with
    | mk r0 od0 =>
      have hr0rest : r0 ∉ rest.map Prod.fst := (List.nodup_cons.mp hnodup).1
      have hrestnodup : (rest.map Prod.fst).Nodup := (List.nodup_cons.mp hnodup).2
      simp only [lookupLedger] at h
      by_cases heq : r = r0
      · rw [if_pos heq] at h
        cases h
        -- the head entry records `some d`; the chain clause applies
        have hchain' : (∃ p, r0.checked_add d.neg.offset = some p ∧
            containsKey rest p = true ∧ (p = origin ∨ cost p < u8MAX)) ∧
            LedgerChain origin cost rest := hchain
        obtain ⟨⟨p, hp1, hp2, hp3⟩, _⟩ := hchain'
        refine ⟨p, by rw [heq]; exact hp1, containsKey_mono hp2, ?_, hp3⟩
        have hpne : p ≠ r0 := by
          intro hpe
          obtain ⟨od, hod⟩ := mem_of_containsKey hp2
          apply hr0rest
          rw [← hpe]
          exact List.mem_map.mpr ⟨(p, od), hod, rfl⟩
        simp only [keyRank, if_pos heq, if_neg hpne]
        omega
      · rw [if_neg heq] at h
        have hchainrest : LedgerChain origin cost rest := by
          cases od0 with
          | none => exact hchain.2
          | some d0 => exact hchain.2
        obtain ⟨p, hp1, hp2, hp3, hp4⟩ := ih hchainrest hrestnodup h
        have hpne : p ≠ r0 := by
          intro hpe
          obtain ⟨od, hod⟩ := mem_of_containsKey hp2
          apply hr0rest
          rw [← hpe]
          exact List.mem_map.mpr ⟨(p, od), hod, rfl⟩
        refine ⟨p, hp1, containsKey_mono hp2, ?_, hp4⟩
        simp only [keyRank, if_neg heq, if_neg hpne]
        omega

/-- The reconstruction walk terminates on any well-formed ledger, keeps its
accumulator, reaches the origin, and only adds predecessor rooms (each the
origin or passable). -/
theorem resolve_loop_spec {origin : RoomName} {cost : RoomName → Nat} {l : Ledger}
    (hchain : LedgerChain origin cost l)
    (hnodup : (l.map Prod.fst).Nodup)
    (hnone : ∀ pr ∈ l, pr.2 = (none : Option Direction) → pr.1 = origin) :
    ∀ (n : Nat) (cursor : RoomName) (acc : List RoomName),
      containsKey l cursor = true →
      cursor ∈ acc →
      l.length - keyRank l cursor < n →
      ∃ path, resolve_loop l n cursor acc = some path ∧
        (∀ x ∈ acc, x ∈ path) ∧
        origin ∈ path ∧
        (∀ x ∈ path, x ∈ acc ∨ x = origin ∨ cost x < u8MAX) := by
  intro n
  induction n with
  | zero =>
    intro cursor acc hcur hacc hm
    omega
  | succ n ih =>
    intro cursor acc hcur hacc hm
    simp only [resolve_loop]
    cases hlook : lookupLedger l cursor with
    | none =>
      rw [containsKey, hlook] at hcur
      cases hcur
    | some od =>
      cases od with
      | none =>
        have hco : cursor = origin := hnone _ (lookupLedger_mem hlook) rfl
        exact ⟨acc, rfl, fun x h => h, hco ▸ hacc, fun x h => Or.inl h⟩
      | some d =>
        obtain ⟨p, hp1, hp2, hp3, hp4⟩ := chain_extract hchain hnodup hlook
        dsimp only
        rw [hp1]
        have hrank := keyRank_lt_length hcur
        have hrankp := keyRank_lt_length hp2
        obtain ⟨path, hrun, hsub, horig, hcontent⟩ :=
          ih p (pathInsert acc p) hp2 (mem_pathInsert_self acc p) (by omega)
        refine ⟨path, hrun, ?_, horig, ?_⟩
        · intro x hx
          exact hsub x (mem_pathInsert_of_mem p hx)
        · intro x hx
          rcases hcontent x hx with h | h | h
          · rcases mem_pathInsert_elim h with h1 | h1
            · exact Or.inl h1
            · subst h1
              rcases hp4 with h2 | h2
              · exact Or.inr (Or.inl h2)
              · exact Or.inr (Or.inr h2)
          · exact Or.inr (Or.inl h)
          · exact Or.inr (Or.inr h)

/-- Running `resolve_completed_path` on a well-formed ledger: the walk completes with
the fuel chosen in the embedding, the result contains the start room and the
origin, and every other room of the result is the origin or passable. -/
theorem resolve_completed_path_spec {origin : RoomName} {cost : RoomName → Nat}
    {l : Ledger} {g : RoomName}
    (hchain : LedgerChain origin cost l)
    (hnodup : (l.map Prod.fst).Nodup)
    (hnone : ∀ pr ∈ l, pr.2 = (none : Option Direction) → pr.1 = origin)
    (hcur : containsKey l g = true) :
    ∃ path, resolve_completed_path g l = some path ∧
      g ∈ path ∧ origin ∈ path ∧
      (∀ x ∈ path, x = g ∨ x = origin ∨ cost x < u8MAX) := by
  obtain ⟨path, hrun, hsub, horig, hcontent⟩ :=
    resolve_loop_spec hchain hnodup hnone (l.length + 1) g [g] hcur
      (List.mem_singleton.mpr rfl) (by omega)
  refine ⟨path, hrun, hsub g (List.mem_singleton.mpr rfl), horig, ?_⟩
  intro x hx
  rcases hcontent x hx with h | h | h
  · exact Or.inl (List.mem_singleton.mp h)
  · exact Or.inr (Or.inl h)
  · exact Or.inr (Or.inr h)

/-! ### Loop-level facts -/

/-- When one iteration finds a goal, the goal is a non-origin goal-set
member reached through the expansion rule, and path reconstruction on the
returned ledger completes, producing a set that contains the goal and the
origin and whose other members are passable. -/
theorem process_found_resolve
    {origin : RoomName} {goals : List RoomName} {cost : RoomName → Nat}
    {exits : RoomName → List Direction}
    {e0 : PortalRouterOpenSetEntry} {rest : List PortalRouterOpenSetEntry}
    {vis0 vis : Ledger} {g : RoomName}
    (hproc : process_dirs goals cost e0 (exits e0.room)
      { open_set := rest, visited := vis0 } = .found g vis)
    (hinvV : SearchInv origin goals cost exits
      { open_set := e0 :: rest, visited := vis0 }) :
    g ∈ goals ∧ g ≠ origin ∧ Reachable origin goals cost exits g ∧
    ∃ path, resolve_completed_path g vis = some path ∧ g ∈ path ∧ origin ∈ path ∧
      (∀ x ∈ path, x = origin ∨ x ∈ goals ∨ cost x < u8MAX) := by
  obtain ⟨d, sm, hinvm, hmono, hvis, hfreshg, hggoals, hdir, haddg⟩ :=
    process_dirs_found_spec hproc hinvV (fun d hd => hd)
  have he0mem : e0 ∈ e0 :: sm.open_set := List.mem_cons_self _ _
  have hgnorig : g ≠ origin := by
    intro heq
    rw [heq] at hfreshg
    rw [containsKey_of_mem hinvm.originVisited] at hfreshg
    cases hfreshg
  have hreach : Reachable origin goals cost exits g :=
    Reachable.step (hinvm.heapReach e0 he0mem) (hinvm.heapExp e0 he0mem) hdir haddg
  have hpass : e0.room = origin ∨ cost e0.room < u8MAX := by
    rcases hinvm.heapExp e0 he0mem with h | h
    · exact Or.inl h
    · exact Or.inr h.1
  have hchain : LedgerChain origin cost vis := by
    rw [hvis]
    exact ⟨⟨e0.room, RoomName.checked_add_symm haddg,
      hinvm.heapSub e0 he0mem, hpass⟩, hinvm.chain⟩
  have hnodup : (vis.map Prod.fst).Nodup := by
    rw [hvis]
    exact List.nodup_cons.mpr ⟨not_mem_fst_of_not_containsKey hfreshg, hinvm.keysNodup⟩
  have hnone : ∀ pr ∈ vis, pr.2 = (none : Option Direction) → pr.1 = origin := by
    rw [hvis]
    intro pr hpr h2
    rcases List.mem_cons.mp hpr with h | h
    · rw [h] at h2; cases h2
    · exact hinvm.noneIsOrigin pr h h2
  have hcur : containsKey vis g = true := by
    rw [hvis]
    exact containsKey_cons.mpr (Or.inl rfl)
  obtain ⟨path, hres, hg, horig, hcontent⟩ :=
    resolve_completed_path_spec hchain hnodup hnone hcur
  refine ⟨hggoals, hgnorig, hreach, path, hres, hg, horig, ?_⟩
  intro x hx
  rcases hcontent x hx with h | h | h
  · exact Or.inr (Or.inl (h ▸ hggoals))
  · exact Or.inl h
  · exact Or.inr (Or.inr h)

/-- Soundness of a successful run: the returned path contains a non-origin
goal reachable through the expansion rule, contains the origin, and all its
other members are passable. -/
theorem find_route_loop_ok_spec
    {origin : RoomName} {goals : List RoomName} {cost : RoomName → Nat}
    {exits : RoomName → List Direction} {fuel : Nat} {s : SearchState}
    {path : List RoomName}
    (hrun : find_route_loop goals cost exits fuel s = some (Except.ok path))
    (hinv : SearchInv origin goals cost exits s) :
    ∃ g, g ∈ goals ∧ g ≠ origin ∧ Reachable origin goals cost exits g ∧
      g ∈ path ∧ origin ∈ path ∧
      (∀ x ∈ path, x = origin ∨ x ∈ goals ∨ cost x < u8MAX) := by
  induction fuel generalizing s with
  | zero => cases hrun
  | succ n ih =>
    simp only [find_route_loop] at hrun
    cases hpop : heap_pop s.open_set with
    | none =>
      rw [hpop] at hrun
      cases hrun
    | some pr =>
      cases pr with
      | mk e0 rest =>
        rw [hpop] at hrun
        dsimp only at hrun
        cases hproc : process_dirs goals cost e0 (exits e0.room)
            { open_set := rest, visited := s.visited } with
        | next s' =>
          rw [hproc] at hrun
          exact ih hrun (inv_run_step hinv (RunStep.mk hpop hproc))
        | found g vis =>
          rw [hproc] at hrun
          dsimp only at hrun
          have hinvV := inv_perm hinv (heap_pop_perm hpop)
          obtain ⟨hggoals, hgnorig, hreach, path0, hres, hgp, horigp, hcontent⟩ :=
            process_found_resolve hproc hinvV
          rw [hres] at hrun
          cases hrun
          exact ⟨g, hggoals, hgnorig, hreach, hgp, horigp, hcontent⟩

/-- A failing run reaches a state with an exhausted frontier. -/
theorem find_route_loop_error_exhausts
    {goals : List RoomName} {cost : RoomName → Nat}
    {exits : RoomName → List Direction} {fuel : Nat} {s : SearchState}
    {e : AnyResult}
    (hrun : find_route_loop goals cost exits fuel s = some (Except.error e)) :
    ∃ s', RunReachFrom goals cost exits s s' ∧ s'.open_set = [] := by
  induction fuel generalizing s with
  | zero => cases hrun
  | succ n ih =>
    simp only [find_route_loop] at hrun
    cases hpop : heap_pop s.open_set with
    | none =>
      exact ⟨s, Relation.ReflTransGen.refl, heap_pop_eq_none.mp hpop⟩
    | some pr =>
      cases pr with
      | mk e0 rest =>
        rw [hpop] at hrun
        dsimp only at hrun
        cases hproc : process_dirs goals cost e0 (exits e0.room)
            { open_set := rest, visited := s.visited } with
        | next s' =>
          rw [hproc] at hrun
          obtain ⟨sf, hreach, hempty⟩ := ih hrun
          exact ⟨sf, Relation.ReflTransGen.head (RunStep.mk hpop hproc) hreach, hempty⟩
        | found g vis =>
          rw [hproc] at hrun
          dsimp only at hrun
          cases hres : resolve_completed_path g vis <;> rw [hres] at hrun <;> cases hrun

/-- Results are stable under extra fuel. -/
theorem find_route_loop_mono
    {goals : List RoomName} {cost : RoomName → Nat}
    {exits : RoomName → List Direction} {fuel : Nat} {s : SearchState}
    {r : Except AnyResult (List RoomName)}
    (hrun : find_route_loop goals cost exits fuel s = some r) :
    find_route_loop goals cost exits (fuel + 1) s = some r := by
  induction fuel generalizing s with
  | zero => cases hrun
  | succ n ih =>
    rw [find_route_loop] at hrun
    rw [find_route_loop]
    cases hpop : heap_pop s.open_set with
    | none =>
      rw [hpop] at hrun
      dsimp only at hrun ⊢
      exact hrun
    | some pr =>
      cases pr with
      | mk e0 rest =>
        rw [hpop] at hrun
        dsimp only at hrun ⊢
        cases hproc : process_dirs goals cost e0 (exits e0.room)
            { open_set := rest, visited := s.visited } with
        | next s' =>
          rw [hproc] at hrun
          dsimp only at hrun ⊢
          exact ih hrun
        | found g vis =>
          rw [hproc] at hrun
          dsimp only at hrun ⊢
          exact hrun

theorem find_route_loop_mono_le
    {goals : List RoomName} {cost : RoomName → Nat}
    {exits : RoomName → List Direction} {fuel fuel' : Nat} {s : SearchState}
    {r : Except AnyResult (List RoomName)}
    (hle : fuel ≤ fuel')
    (hrun : find_route_loop goals cost exits fuel s = some r) :
    find_route_loop goals cost exits fuel' s = some r := by
  induction hle with
  | refl => exact hrun
  | step _ ih => exact find_route_loop_mono ih

/-- The room space is finite with exactly `256 * 256` rooms. -/
def roomEquiv : RoomName ≃ Fin 256 × Fin 256 :=
  { toFun := fun r => (r.xr, r.yr)
    invFun := fun p => ⟨p.1, p.2⟩
    left_inv := fun _ => rfl
    right_inv := fun _ => rfl }

theorem card_roomName : Fintype.card RoomName = 65536 := by
  rw [Fintype.card_congr roomEquiv, Fintype.card_prod, Fintype.card_fin]

/-- The ledger never exceeds the number of rooms (its keys are distinct). -/
theorem visited_length_le
    {origin : RoomName} {goals : List RoomName} {cost : RoomName → Nat}
    {exits : RoomName → List Direction} {s : SearchState}
    (hinv : SearchInv origin goals cost exits s) : s.visited.length ≤ 65536 := by
  have h := hinv.keysNodup.length_le_card
  rw [List.length_map, card_roomName] at h
  exact h

/-- Each push during neighbor processing is matched by a ledger insertion,
and the ledger only grows. -/
theorem process_dirs_next_len
    {goals : List RoomName} {cost : RoomName → Nat}
    {e0 : PortalRouterOpenSetEntry} {dirs : List Direction} {s s' : SearchState}
    (hrun : process_dirs goals cost e0 dirs s = .next s') :
    s'.open_set.length + s.visited.length ≤ s.open_set.length + s'.visited.length ∧
    s.visited.length ≤ s'.visited.length := by
  induction dirs generalizing s with
  | nil =>
    cases hrun
    omega
  | cons d rest ih =>
    simp only [process_dirs] at hrun
    split at hrun
    · exact ih hrun
    · cases hadd : e0.room.checked_add d.offset with
      | none =>
        rw [hadd] at hrun
        exact ih hrun
      | some adj =>
        rw [hadd] at hrun
        simp only [] at hrun
        split at hrun
        · exact ih hrun
        · split at hrun
          · cases hrun
          · split at hrun
            · have h := ih hrun
              have h1 : s'.open_set.length + (s.visited.length + 1) ≤
                  (s.open_set.length + 1) + s'.visited.length := h.1
              have h2 : s.visited.length + 1 ≤ s'.visited.length := h.2
              omega
            · have h := ih hrun
              have h1 : s'.open_set.length + (s.visited.length + 1) ≤
                  s.open_set.length + s'.visited.length := h.1
              have h2 : s.visited.length + 1 ≤ s'.visited.length := h.2
              omega

/-- Totality: with fuel exceeding the measure
`|frontier| + (65536 - |ledger|)`, the loop reaches a return. -/
theorem find_route_loop_total
    {origin : RoomName} {goals : List RoomName} {cost : RoomName → Nat}
    {exits : RoomName → List Direction} :
    ∀ (fuel : Nat) (s : SearchState),
      SearchInv origin goals cost exits s →
      s.open_set.length + (65536 - s.visited.length) < fuel →
      (find_route_loop goals cost exits fuel s).isSome = true := by
  intro fuel
  induction fuel with
  | zero =>
    intro s _ hm
    omega
  | succ n ih =>
    intro s hinv hm
    rw [find_route_loop]
    cases hpop : heap_pop s.open_set with
    | none => rfl
    | some pr =>
      cases pr with
      | mk e0 rest =>
        dsimp only
        cases hproc : process_dirs goals cost e0 (exits e0.room)
            { open_set := rest, visited := s.visited } with
        | next s' =>
          dsimp only
          have hinv' := inv_run_step hinv (RunStep.mk hpop hproc)
          apply ih s' hinv'
          have hlen : s.open_set.length = rest.length + 1 := by
            have h := (heap_pop_perm hpop).length_eq
            simpa using h
          have hd := process_dirs_next_len hproc
          have h1 : s'.open_set.length + s.visited.length ≤
              rest.length + s'.visited.length := hd.1
          have h2 : s.visited.length ≤ s'.visited.length := hd.2
          have h3 : s'.visited.length ≤ 65536 := visited_length_le hinv'
          have h4 : s.visited.length ≤ 65536 := visited_length_le hinv
          omega
        | found g vis =>
          dsimp only
          have hinvV := inv_perm hinv (heap_pop_perm hpop)
          obtain ⟨_, _, _, path, hres, _⟩ := process_found_resolve hproc hinvV
          rw [hres]
          rfl

/-! ### Completeness: a failing run has explored every reachable room -/

/-- The search loop instrumented to also report the ledger at the moment of
return (a ghost observation; `find_route_loop` is its first projection). -/
def find_route_loopI (goals : List RoomName) (cost : RoomName → Nat)
    (exits : RoomName → List Direction) :
    Nat → SearchState → Option (Except AnyResult (List RoomName) × Ledger)
  | 0, _ => none
  | fuel + 1, s =>
    match heap_pop s.open_set with
    | none => some (Except.error AnyResult.Fail, s.visited)
    | some (open_set_entry, rest) =>
      match process_dirs goals cost open_set_entry (exits open_set_entry.room)
          { open_set := rest, visited := s.visited } with
      | .next s' => find_route_loopI goals cost exits fuel s'
      | .found goalRoom vis =>
        match resolve_completed_path goalRoom vis with
        | some path => some (Except.ok path, vis)
        | none => none

theorem find_route_loop_eq_loopI (goals : List RoomName) (cost : RoomName → Nat)
    (exits : RoomName → List Direction) (fuel : Nat) (s : SearchState) :
    find_route_loop goals cost exits fuel s =
      (find_route_loopI goals cost exits fuel s).map Prod.fst := by
  induction fuel generalizing s with
  | zero => rfl
  | succ n ih =>
    rw [find_route_loop, find_route_loopI]
    cases hpop : heap_pop s.open_set with
    | none => rfl
    | some pr =>
      cases pr with
      | mk e0 rest =>
        dsimp only
        cases hproc : process_dirs goals cost e0 (exits e0.room)
            { open_set := rest, visited := s.visited } with
        | next s' => exact ih s'
        | found g vis =>
          dsimp only
          cases resolve_completed_path g vis <;> rfl

/-- Entries of the input frontier survive neighbor processing. -/
theorem process_dirs_next_opens
    {goals : List RoomName} {cost : RoomName → Nat}
    {e0 : PortalRouterOpenSetEntry} {dirs : List Direction} {s s' : SearchState}
    (hrun : process_dirs goals cost e0 dirs s = .next s') :
    ∀ e ∈ s.open_set, e ∈ s'.open_set := by
  induction dirs generalizing s with
  | nil =>
    cases hrun
    exact fun e he => he
  | cons d rest ih =>
    simp only [process_dirs] at hrun
    split at hrun
    · exact ih hrun
    · cases hadd : e0.room.checked_add d.offset with
      | none =>
        rw [hadd] at hrun
        exact ih hrun
      | some adj =>
        rw [hadd] at hrun
        simp only [] at hrun
        split at hrun
        · exact ih hrun
        · split at hrun
          · cases hrun
          · split at hrun
            · intro e he
              exact ih hrun e (List.mem_cons_of_mem _ he)
            · exact fun e he => ih hrun e he

/-- A room recorded during neighbor processing but absent before is not a
goal, and if it is passable its entry is in the resulting frontier. -/
theorem process_dirs_next_fresh
    {goals : List RoomName} {cost : RoomName → Nat}
    {e0 : PortalRouterOpenSetEntry} {dirs : List Direction} {s s' : SearchState}
    (hrun : process_dirs goals cost e0 dirs s = .next s') :
    ∀ r, containsKey s'.visited r = true → containsKey s.visited r = false →
      r ∉ goals ∧ (cost r < u8MAX → ∃ e ∈ s'.open_set, e.room = r) := by
  induction dirs generalizing s with
  | nil =>
    cases hrun
    intro r h1 h2
    rw [h1] at h2
    cases h2
  | cons d rest ih =>
    simp only [process_dirs] at hrun
    split at hrun
    · exact ih hrun
    · cases hadd : e0.room.checked_add d.offset with
      | none =>
        rw [hadd] at hrun
        exact ih hrun
      | some adj =>
        rw [hadd] at hrun
        simp only [] at hrun
        split at hrun
        · exact ih hrun
        · rename_i hnotvis
          split at hrun
          · cases hrun
          · rename_i hngoal
            split at hrun
            · rename_i hc
              intro r h1 h2
              cases hc2 : containsKey ((adj, some d) :: s.visited) r with
              | true =>
                rcases containsKey_cons.mp hc2 with h3 | h3
                · refine ⟨by rw [h3]; exact hngoal, fun _ => ?_⟩
                  refine ⟨PortalRouterOpenSetEntry.new adj
                    ((e0.g_score + cost adj) % u32Mod) (some d) goals, ?_, h3.symm⟩
                  exact process_dirs_next_opens hrun _ (List.mem_cons_self _ _)
                · rw [h3] at h2
                  cases h2
              | false => exact ih hrun r h1 hc2
            · rename_i hc
              intro r h1 h2
              cases hc2 : containsKey ((adj, some d) :: s.visited) r with
              | true =>
                rcases containsKey_cons.mp hc2 with h3 | h3
                · subst h3
                  exact ⟨hngoal, fun hcp => absurd hcp hc⟩
                · rw [h3] at h2
                  cases h2
              | false => exact ih hrun r h1 hc2

/-- Exhaustion analysis of a failing run: the final ledger `Vf` extends the
current one, covers every in-range neighbor of every frontier entry, and
every room it gains during the run is a non-goal whose neighbors are also
covered whenever the room is passable. -/
theorem loopI_error_spec
    {origin : RoomName} {goals : List RoomName} {cost : RoomName → Nat}
    {exits : RoomName → List Direction} {fuel : Nat} {s : SearchState}
    {e : AnyResult} {Vf : Ledger}
    (hrun : find_route_loopI goals cost exits fuel s = some (Except.error e, Vf))
    (hinv : SearchInv origin goals cost exits s) :
    (∀ r, containsKey s.visited r = true → containsKey Vf r = true) ∧
    (∀ en ∈ s.open_set, ∀ d ∈ exits en.room, ∀ r',
      en.room.checked_add d.offset = some r' → containsKey Vf r' = true) ∧
    (∀ r, containsKey Vf r = true → containsKey s.visited r = false →
      r ∉ goals ∧ (cost r < u8MAX → ∀ d ∈ exits r, ∀ r',
        r.checked_add d.offset = some r' → containsKey Vf r' = true)) := by
  induction fuel generalizing s with
  | zero => cases hrun
  | succ n ih =>
    rw [find_route_loopI] at hrun
    cases hpop : heap_pop s.open_set with
    | none =>
      rw [hpop] at hrun
      cases hrun
      have hempty : s.open_set = [] := heap_pop_eq_none.mp hpop
      refine ⟨fun r h => h, ?_, ?_⟩
      · intro en hen
        rw [hempty] at hen
        cases hen
      · intro r h1 h2
        rw [h1] at h2
        cases h2
    | some pr =>
      cases pr with
      | mk e0 rest =>
        rw [hpop] at hrun
        dsimp only at hrun
        cases hproc : process_dirs goals cost e0 (exits e0.room)
            { open_set := rest, visited := s.visited } with
        | next s' =>
          rw [hproc] at hrun
          have hinv' := inv_run_step hinv (RunStep.mk hpop hproc)
          obtain ⟨mono', cov', fresh'⟩ := ih hrun hinv'
          have hperm := heap_pop_perm hpop
          have hinvV := inv_perm hinv hperm
          obtain ⟨hinvV', hmonoP, hcovP⟩ :=
            process_dirs_next_inv hproc hinvV (fun d hd => hd)
          have hmono : ∀ r, containsKey s.visited r = true → containsKey Vf r = true :=
            fun r h => mono' r (hmonoP r h)
          refine ⟨hmono, ?_, ?_⟩
          · intro en hen d hd r' hadd'
            rcases List.mem_cons.mp (hperm.mem_iff.mp hen) with h | h
            · -- the popped entry: processed in this iteration
              rw [h] at hd hadd'
              exact mono' r' (hcovP d hd r' hadd')
            · -- surviving entry: covered by the remaining run
              have hmem : en ∈ s'.open_set :=
                process_dirs_next_opens hproc en h
              exact cov' en hmem d hd r' hadd'
          · intro r h1 h2
            cases hc2 : containsKey s'.visited r with
            | false => exact fresh' r h1 hc2
            | true =>
              obtain ⟨hng, hppush⟩ := process_dirs_next_fresh hproc r hc2 h2
              refine ⟨hng, fun hcp d hd r' hadd' => ?_⟩
              obtain ⟨en, hen, hroom⟩ := hppush hcp
              rw [← hroom] at hd hadd'
              exact cov' en hen d hd r' hadd'
        | found g vis =>
          rw [hproc] at hrun
          dsimp only at hrun
          cases hres : resolve_completed_path g vis <;> rw [hres] at hrun <;> cases hrun

theorem containsKey_init {origin : RoomName} {goals : List RoomName} {r : RoomName} :
    containsKey (initState origin goals).visited r = (if r = origin then true else false) := by
  simp only [initState, containsKey, lookupLedger]
  split <;> rfl

/-- In a failing run every reachable room ends up in the final ledger. -/
theorem error_covers_reachable
    {origin : RoomName} {goals : List RoomName} {cost : RoomName → Nat}
    {exits : RoomName → List Direction} {fuel : Nat}
    {e : AnyResult} {Vf : Ledger}
    (hrun : find_route_loopI goals cost exits fuel (initState origin goals) =
      some (Except.error e, Vf)) :
    ∀ r, Reachable origin goals cost exits r → containsKey Vf r = true := by
  obtain ⟨mono, cov, fresh⟩ := loopI_error_spec hrun (inv_init origin goals cost exits)
  intro r hr
  induction hr with
  | origin =>
    refine mono origin ?_
    rw [containsKey_init, if_pos rfl]
  | step h1 hexp hd hadd ihr =>
    rename_i r0 r' d
    by_cases horig : r0 = origin
    · subst horig
      refine cov (PortalRouterOpenSetEntry.new r0 0 none goals) ?_ d hd r' hadd
      simp [initState]
    · have hfresh0 : containsKey (initState origin goals).visited r0 = false := by
        rw [containsKey_init, if_neg horig]
      obtain ⟨hng, himp⟩ := fresh r0 ihr hfresh0
      rcases hexp with h | h
      · exact absurd h horig
      · exact himp h.1 d hd r' hadd

/-- The search can succeed exactly when some non-origin goal is reachable
through the expansion rule. -/
def CanSucceed (origin : RoomName) (goals : List RoomName) (cost : RoomName → Nat)
    (exits : RoomName → List Direction) : Prop :=
  ∃ g, g ∈ goals ∧ g ≠ origin ∧ Reachable origin goals cost exits g

/-- The run (with sufficient fuel) returns a path. -/
def Succeeds (origin : RoomName) (goals : List RoomName) (cost : RoomName → Nat)
    (exits : RoomName → List Direction) : Prop :=
  ∃ fuel path, find_route fuel origin goals cost exits = some (Except.ok path)

/-- The run (with sufficient fuel) returns the failure value. -/
def Fails (origin : RoomName) (goals : List RoomName) (cost : RoomName → Nat)
    (exits : RoomName → List Direction) : Prop :=
  ∃ fuel, find_route fuel origin goals cost exits = some (Except.error AnyResult.Fail)

theorem error_not_canSucceed
    {origin : RoomName} {goals : List RoomName} {cost : RoomName → Nat}
    {exits : RoomName → List Direction} {fuel : Nat}
    {e : AnyResult} {Vf : Ledger}
    (hrun : find_route_loopI goals cost exits fuel (initState origin goals) =
      some (Except.error e, Vf)) :
    ¬ CanSucceed origin goals cost exits := by
  rintro ⟨g, hg, hne, hreach⟩
  have hgVf := error_covers_reachable hrun g hreach
  have hfresh : containsKey (initState origin goals).visited g = false := by
    rw [containsKey_init, if_neg hne]
  obtain ⟨hng, _⟩ :=
    (loopI_error_spec hrun (inv_init origin goals cost exits)).2.2 g hgVf hfresh
  exact hng hg

theorem initState_measure (origin : RoomName) (goals : List RoomName) :
    (initState origin goals).open_set.length +
      (65536 - (initState origin goals).visited.length) < 65537 := by
  have h1 : (initState origin goals).open_set.length = 1 := rfl
  have h2 : (initState origin goals).visited.length = 1 := rfl
  omega

theorem succeeds_iff_canSucceed
    (origin : RoomName) (goals : List RoomName) (cost : RoomName → Nat)
    (exits : RoomName → List Direction) :
    Succeeds origin goals cost exits ↔ CanSucceed origin goals cost exits := by
  constructor
  · rintro ⟨fuel, path, h⟩
    obtain ⟨g, hg, hne, hreach, _⟩ :=
      find_route_loop_ok_spec h (inv_init origin goals cost exits)
    exact ⟨g, hg, hne, hreach⟩
  · intro hcs
    have hsome :=
      @find_route_loop_total origin goals cost exits 65537 (initState origin goals)
        (inv_init origin goals cost exits) (initState_measure origin goals)
    obtain ⟨r, hr⟩ := Option.isSome_iff_exists.mp hsome
    cases r with
    | ok path => exact ⟨65537, path, hr⟩
    | error e =>
      exfalso
      have hI := find_route_loop_eq_loopI goals cost exits 65537 (initState origin goals)
      rw [hr] at hI
      cases hloopI : find_route_loopI goals cost exits 65537 (initState origin goals) with
      | none => rw [hloopI] at hI; cases hI
      | some p =>
        rw [hloopI] at hI
        cases p with
        | mk p1 p2 =>
          simp only [Option.map_some'] at hI
          cases hI
          exact error_not_canSucceed hloopI hcs

theorem fails_iff_not_succeeds
    (origin : RoomName) (goals : List RoomName) (cost : RoomName → Nat)
    (exits : RoomName → List Direction) :
    Fails origin goals cost exits ↔ ¬ Succeeds origin goals cost exits := by
  constructor
  · rintro ⟨f, hf⟩ ⟨f', path, hp⟩
    have h1 : find_route_loop goals cost exits (max f f') (initState origin goals) =
        some (Except.error AnyResult.Fail) :=
      find_route_loop_mono_le (Nat.le_max_left f f') hf
    have h2 : find_route_loop goals cost exits (max f f') (initState origin goals) =
        some (Except.ok path) :=
      find_route_loop_mono_le (Nat.le_max_right f f') hp
    rw [h1] at h2
    cases h2
  · intro hns
    have hsome :=
      @find_route_loop_total origin goals cost exits 65537 (initState origin goals)
        (inv_init origin goals cost exits) (initState_measure origin goals)
    obtain ⟨r, hr⟩ := Option.isSome_iff_exists.mp hsome
    cases r with
    | ok path => exact absurd ⟨65537, path, hr⟩ hns
    | error e =>
      cases e with
      | Fail => exact ⟨65537, hr⟩

/-- Reachability only depends on the set of exits of each room, not the
enumeration order. -/
theorem reachable_perm
    {origin : RoomName} {goals : List RoomName} {cost : RoomName → Nat}
    {exits1 exits2 : RoomName → List Direction}
    (hp : ∀ r, (exits1 r).Perm (exits2 r)) :
    ∀ {r : RoomName}, Reachable origin goals cost exits1 r →
      Reachable origin goals cost exits2 r := by
  intro r h
  induction h with
  | origin => exact Reachable.origin
  | step h1 h2 h3 h4 ih => exact Reachable.step ih h2 ((hp _).mem_iff.mp h3) h4

/-! ### Claim theorems -/

/-- C1: for every origin, goal set and connectivity, two cost collaborators
that agree on all rooms outside the goal set produce identical `find_route`
results at every fuel — the cost collaborator is never invoked on a
goal-set member because the goal test precedes the cost lookup — and
consequently returning the impassable sentinel for goal rooms cannot turn
success into failure. -/
theorem C1_goal_test_precedes_cost :
    ∀ (origin : RoomName) (goals : List RoomName) (exits : RoomName → List Direction)
      (cost1 cost2 : RoomName → Nat),
      (∀ r, r ∉ goals → cost1 r = cost2 r) →
      (∀ fuel, find_route fuel origin goals cost1 exits =
        find_route fuel origin goals cost2 exits) ∧
      (Succeeds origin goals cost1 exits ↔ Succeeds origin goals cost2 exits) := by
  intro origin goals exits cost1 cost2 hc
  have heq : ∀ fuel, find_route fuel origin goals cost1 exits =
      find_route fuel origin goals cost2 exits := fun fuel =>
    find_route_loop_cost_congr goals cost1 cost2 exits hc fuel (initState origin goals)
  refine ⟨heq, ?_⟩
  constructor
  · rintro ⟨fuel, path, h⟩
    exact ⟨fuel, path, (heq fuel).symm.trans h⟩
  · rintro ⟨fuel, path, h⟩
    exact ⟨fuel, path, (heq fuel).trans h⟩

/-- Witness for C1: a uniform cost map and one that marks the goal room
impassable agree off the goal set, so the runs coincide (and both succeed). -/
theorem C1_goal_test_precedes_cost_witness :
    (∀ r : RoomName, r ∉ [mkRoom 1 0] →
      (fun _ : RoomName => 1) r =
        (fun r : RoomName => if r = mkRoom 1 0 then u8MAX else 1) r) ∧
    find_route 5 (mkRoom 0 0) [mkRoom 1 0] (fun _ => 1) fullExits =
      find_route 5 (mkRoom 0 0) [mkRoom 1 0]
        (fun r => if r = mkRoom 1 0 then u8MAX else 1) fullExits := by
  have hc : ∀ r : RoomName, r ∉ [mkRoom 1 0] →
      (fun _ : RoomName => 1) r =
        (fun r : RoomName => if r = mkRoom 1 0 then u8MAX else 1) r := by
    intro r hr
    simp only [List.mem_singleton] at hr
    simp only []
    rw [if_neg hr]
  exact ⟨hc,
    (C1_goal_test_precedes_cost (mkRoom 0 0) [mkRoom 1 0] fullExits _ _ hc).1 5⟩

/-- C2 counterexample: with the cost collaborator constantly the impassable
sentinel, the search still succeeds and returns a path that contains the
goal room — a room for which the collaborator returns the sentinel — so the
claim that such rooms never appear in a returned path is false (the origin,
also a sentinel room here, is moreover pushed onto the frontier). -/
theorem C2_sentinel_counterexample :
    find_route 5 (mkRoom 0 0) [mkRoom 1 0] (fun _ => u8MAX) fullExits =
      some (Except.ok [mkRoom 0 0, mkRoom 1 0]) ∧
    (fun _ : RoomName => u8MAX) (mkRoom 1 0) = u8MAX ∧
    mkRoom 1 0 ∈ [mkRoom 0 0, mkRoom 1 0] ∧
    PortalRouterOpenSetEntry.new (mkRoom 0 0) 0 none [mkRoom 1 0] ∈
      (initState (mkRoom 0 0) [mkRoom 1 0]).open_set ∧
    (fun _ : RoomName => u8MAX)
      (PortalRouterOpenSetEntry.new (mkRoom 0 0) 0 none [mkRoom 1 0]).room = u8MAX := by
  refine ⟨rfl, rfl, by decide, by decide, rfl⟩

/-- C2 amended: a non-origin room for which the cost collaborator returns
the impassable sentinel is never pushed onto the frontier (every frontier
entry's room is the origin or passable), and every room of a returned path
is the origin, a goal, or passable. -/
theorem C2_sentinel_amended :
    ∀ (origin : RoomName) (goals : List RoomName) (cost : RoomName → Nat)
      (exits : RoomName → List Direction),
      (∀ s, RunReach origin goals cost exits s → ∀ e ∈ s.open_set,
        e.room = origin ∨ cost e.room < u8MAX) ∧
      (∀ fuel path, find_route fuel origin goals cost exits = some (Except.ok path) →
        ∀ x ∈ path, x = origin ∨ x ∈ goals ∨ cost x < u8MAX) := by
  intro origin goals cost exits
  constructor
  · intro s hs e he
    rcases (runReach_inv hs).heapExp e he with h | h
    · exact Or.inl h
    · exact Or.inr h.1
  · intro fuel path h
    obtain ⟨g, _, _, _, _, _, hcontent⟩ :=
      find_route_loop_ok_spec h (inv_init origin goals cost exits)
    exact hcontent

/-- Witness for the amended C2, at the initial state of a concrete run and
at one room of its returned path. -/
theorem C2_sentinel_amended_witness :
    ((PortalRouterOpenSetEntry.new (mkRoom 0 0) 0 none [mkRoom 2 0]).room = mkRoom 0 0 ∨
      (fun _ : RoomName => 1) (PortalRouterOpenSetEntry.new (mkRoom 0 0) 0 none
        [mkRoom 2 0]).room < u8MAX) ∧
    (mkRoom 1 0 = mkRoom 0 0 ∨ mkRoom 1 0 ∈ [mkRoom 2 0] ∨
      (fun _ : RoomName => 1) (mkRoom 1 0) < u8MAX) :=
  ⟨(C2_sentinel_amended (mkRoom 0 0) [mkRoom 2 0] (fun _ => 1) fullExits).1
      (initState (mkRoom 0 0) [mkRoom 2 0]) Relation.ReflTransGen.refl
      (PortalRouterOpenSetEntry.new (mkRoom 0 0) 0 none [mkRoom 2 0]) (by decide),
   (C2_sentinel_amended (mkRoom 0 0) [mkRoom 2 0] (fun _ => 1) fullExits).2
      5 [mkRoom 0 0, mkRoom 1 0, mkRoom 2 0] rfl (mkRoom 1 0) (by decide)⟩

/-- C4: throughout every run, the ledger's keys are distinct (each node is
recorded exactly once, at discovery), every frontier entry's room is already
in the ledger (recording happens at discovery, before the entry could ever
be popped), and the frontier never holds two entries for the same room. -/
theorem C4_discovery_time_closing :
    ∀ (origin : RoomName) (goals : List RoomName) (cost : RoomName → Nat)
      (exits : RoomName → List Direction) (s : SearchState),
      RunReach origin goals cost exits s →
      (s.visited.map Prod.fst).Nodup ∧
      (∀ e ∈ s.open_set, containsKey s.visited e.room = true) ∧
      (s.open_set.map PortalRouterOpenSetEntry.room).Nodup := by
  intro origin goals cost exits s hs
  have hinv := runReach_inv hs
  exact ⟨hinv.keysNodup, hinv.heapSub, hinv.heapNodup⟩

/-- Witness for C4 at the initial state of a concrete run. -/
theorem C4_discovery_time_closing_witness :
    ((initState (mkRoom 0 0) [mkRoom 2 0]).visited.map Prod.fst).Nodup ∧
    (∀ e ∈ (initState (mkRoom 0 0) [mkRoom 2 0]).open_set,
      containsKey (initState (mkRoom 0 0) [mkRoom 2 0]).visited e.room = true) ∧
    ((initState (mkRoom 0 0) [mkRoom 2 0]).open_set.map
      PortalRouterOpenSetEntry.room).Nodup :=
  C4_discovery_time_closing (mkRoom 0 0) [mkRoom 2 0] (fun _ => 1) fullExits
    (initState (mkRoom 0 0) [mkRoom 2 0]) Relation.ReflTransGen.refl

/-- A corner room together with a ledger entry whose recorded direction
points off the map: walking back from it never meets either stop condition. -/
def cornerRoom : RoomName := mkRoom (-128) (-128)

/-- A ledger on which the reconstruction walk diverges: the stored
direction's inverse leaves the map, so `checked_add` keeps failing and the
cursor never advances. -/
def stuckLedger : Ledger := [(cornerRoom, some Direction.bottom)]

/-- C5: the reconstruction walk does not terminate for every goal node and
ledger.  On `stuckLedger` the source's `while let` loop spins forever (the
failed `checked_add` leaves the cursor unchanged and is not a loop exit):
in the embedding, no amount of fuel completes the walk, and
`resolve_completed_path` reports divergence. -/
theorem C5_reconstruction_divergence :
    (∀ (fuel : Nat) (acc : List RoomName),
      resolve_loop stuckLedger fuel cornerRoom acc = none) ∧
    resolve_completed_path cornerRoom stuckLedger = none := by
  have h : ∀ (fuel : Nat) (acc : List RoomName),
      resolve_loop stuckLedger fuel cornerRoom acc = none := by
    intro fuel
    induction fuel with
    | zero => intro acc; rfl
    | succ n ih =>
      intro acc
      rw [resolve_loop]
      rw [show lookupLedger stuckLedger cornerRoom = some (some Direction.bottom) from rfl]
      dsimp only
      rw [show cornerRoom.checked_add Direction.bottom.neg.offset = none from rfl]
      exact ih acc
  exact ⟨h, h (stuckLedger.length + 1) [cornerRoom]⟩

/-- C6: whenever `find_route` returns success, the returned set contains
both the origin and a discovered goal. -/
theorem C6_path_contains_endpoints :
    ∀ (fuel : Nat) (origin : RoomName) (goals : List RoomName) (cost : RoomName → Nat)
      (exits : RoomName → List Direction) (path : List RoomName),
      find_route fuel origin goals cost exits = some (Except.ok path) →
      origin ∈ path ∧ ∃ g, g ∈ goals ∧ g ∈ path := by
  intro fuel origin goals cost exits path h
  obtain ⟨g, hg, _, _, hgp, horig, _⟩ :=
    find_route_loop_ok_spec h (inv_init origin goals cost exits)
  exact ⟨horig, g, hg, hgp⟩

/-- Witness for C6 on the concrete grid scenario. -/
theorem C6_path_contains_endpoints_witness :
    mkRoom 0 0 ∈ [mkRoom 0 0, mkRoom 1 0, mkRoom 2 0] ∧
    ∃ g, g ∈ [mkRoom 2 0] ∧ g ∈ [mkRoom 0 0, mkRoom 1 0, mkRoom 2 0] :=
  C6_path_contains_endpoints 5 (mkRoom 0 0) [mkRoom 2 0] (fun _ => 1) fullExits
    [mkRoom 0 0, mkRoom 1 0, mkRoom 2 0] rfl

/-- C7: the origin being a goal is not special-cased.  An isolated origin
that is in the goal set yields the failure outcome, never `Ok {origin}`;
and in general a successful run's path always contains a goal distinct from
the origin, because the origin — visited from the start — is never
goal-tested. -/
theorem C7_origin_never_goal_tested :
    (∀ (fuel : Nat) (origin : RoomName) (goals : List RoomName) (cost : RoomName → Nat),
      origin ∈ goals → 2 ≤ fuel →
      find_route fuel origin goals cost (fun _ => []) =
        some (Except.error AnyResult.Fail)) ∧
    (∀ (fuel : Nat) (origin : RoomName) (goals : List RoomName) (cost : RoomName → Nat)
      (exits : RoomName → List Direction) (path : List RoomName),
      find_route fuel origin goals cost exits = some (Except.ok path) →
      ∃ g, g ∈ goals ∧ g ∈ path ∧ g ≠ origin) := by
  constructor
  · intro fuel origin goals cost _ hfuel
    obtain ⟨k, rfl⟩ : ∃ k, fuel = k + 2 := ⟨fuel - 2, by omega⟩
    rfl
  · intro fuel origin goals cost exits path h
    obtain ⟨g, hg, hne, _, hgp, _, _⟩ :=
      find_route_loop_ok_spec h (inv_init origin goals cost exits)
    exact ⟨g, hg, hgp, hne⟩

/-- Witness for C7: the isolated origin-in-goal-set scenario fails, and the
concrete successful run's goal is distinct from the origin. -/
theorem C7_origin_never_goal_tested_witness :
    find_route 2 (mkRoom 0 0) [mkRoom 0 0] (fun _ => 1) (fun _ => []) =
      some (Except.error AnyResult.Fail) ∧
    ∃ g, g ∈ [mkRoom 2 0] ∧ g ∈ [mkRoom 0 0, mkRoom 1 0, mkRoom 2 0] ∧ g ≠ mkRoom 0 0 :=
  ⟨C7_origin_never_goal_tested.1 2 (mkRoom 0 0) [mkRoom 0 0] (fun _ => 1)
      (by decide) (by decide),
   C7_origin_never_goal_tested.2 5 (mkRoom 0 0) [mkRoom 2 0] (fun _ => 1) fullExits
      [mkRoom 0 0, mkRoom 1 0, mkRoom 2 0] rfl⟩

/-- C8: every completed run returns either a path or the single
payload-free failure value; some fuel always completes the run; a failure
is reached exactly by exhausting the frontier without having discovered a
goal (the failing run passes through a state with an empty open set whose
ledger holds no goal other than possibly the origin, any state with an
empty frontier immediately yields the failure value, and an isolated
origin with a goal set not containing it fails). -/
theorem C8_failure_is_exhaustion :
    (∀ (fuel : Nat) (origin : RoomName) (goals : List RoomName) (cost : RoomName → Nat)
      (exits : RoomName → List Direction) (r : Except AnyResult (List RoomName)),
      find_route fuel origin goals cost exits = some r →
      (∃ path, r = Except.ok path) ∨ r = Except.error AnyResult.Fail) ∧
    (∀ (origin : RoomName) (goals : List RoomName) (cost : RoomName → Nat)
      (exits : RoomName → List Direction),
      ∃ fuel r, find_route fuel origin goals cost exits = some r) ∧
    (∀ (fuel : Nat) (origin : RoomName) (goals : List RoomName) (cost : RoomName → Nat)
      (exits : RoomName → List Direction) (e : AnyResult),
      find_route fuel origin goals cost exits = some (Except.error e) →
      ∃ s', RunReach origin goals cost exits s' ∧ s'.open_set = [] ∧
        ∀ pr ∈ s'.visited, pr.1 = origin ∨ pr.1 ∉ goals) ∧
    (∀ (fuel : Nat) (goals : List RoomName) (cost : RoomName → Nat)
      (exits : RoomName → List Direction) (vis : Ledger),
      find_route_loop goals cost exits (fuel + 1) { open_set := [], visited := vis } =
        some (Except.error AnyResult.Fail)) ∧
    (∀ (fuel : Nat) (origin : RoomName) (goals : List RoomName) (cost : RoomName → Nat),
      origin ∉ goals → 2 ≤ fuel →
      find_route fuel origin goals cost (fun _ => []) =
        some (Except.error AnyResult.Fail)) := by
  refine ⟨?_, ?_, ?_, ?_, ?_⟩
  · intro _ _ _ _ _ r _
    cases r with
    | ok p => exact Or.inl ⟨p, rfl⟩
    | error e => cases e with | Fail => exact Or.inr rfl
  · intro origin goals cost exits
    have hsome := @find_route_loop_total origin goals cost exits 65537
      (initState origin goals) (inv_init origin goals cost exits)
      (initState_measure origin goals)
    obtain ⟨r, hr⟩ := Option.isSome_iff_exists.mp hsome
    exact ⟨65537, r, hr⟩
  · intro fuel origin goals cost exits e h
    obtain ⟨s', hreach, hempty⟩ := find_route_loop_error_exhausts h
    have hinv' : SearchInv origin goals cost exits s' := runReach_inv hreach
    exact ⟨s', hreach, hempty, hinv'.visNonGoal⟩
  · intro fuel goals cost exits vis
    rfl
  · intro fuel origin goals cost _ hfuel
    obtain ⟨k, rfl⟩ : ∃ k, fuel = k + 2 := ⟨fuel - 2, by omega⟩
    rfl

/-- Witness for C8 on the isolated-origin scenario. -/
theorem C8_failure_is_exhaustion_witness :
    ((∃ path, (Except.error AnyResult.Fail : Except AnyResult (List RoomName)) =
        Except.ok path) ∨
      (Except.error AnyResult.Fail : Except AnyResult (List RoomName)) =
        Except.error AnyResult.Fail) ∧
    (∃ fuel r, find_route fuel (mkRoom 0 0) [mkRoom 3 0] (fun _ => 1)
      (fun _ => []) = some r) ∧
    (∃ s', RunReach (mkRoom 0 0) [mkRoom 3 0] (fun _ => 1) (fun _ => []) s' ∧
      s'.open_set = [] ∧
      ∀ pr ∈ s'.visited, pr.1 = mkRoom 0 0 ∨ pr.1 ∉ [mkRoom 3 0]) ∧
    find_route_loop [mkRoom 3 0] (fun _ => 1) (fun _ => []) 1
      { open_set := [], visited := [(mkRoom 0 0, none)] } =
      some (Except.error AnyResult.Fail) ∧
    find_route 2 (mkRoom 0 0) [mkRoom 3 0] (fun _ => 1) (fun _ => []) =
      some (Except.error AnyResult.Fail) :=
  ⟨C8_failure_is_exhaustion.1 2 (mkRoom 0 0) [mkRoom 3 0] (fun _ => 1) (fun _ => [])
      (Except.error AnyResult.Fail) rfl,
   C8_failure_is_exhaustion.2.1 (mkRoom 0 0) [mkRoom 3 0] (fun _ => 1) (fun _ => []),
   C8_failure_is_exhaustion.2.2.1 2 (mkRoom 0 0) [mkRoom 3 0] (fun _ => 1) (fun _ => [])
      AnyResult.Fail rfl,
   C8_failure_is_exhaustion.2.2.2.1 0 [mkRoom 3 0] (fun _ => 1) (fun _ => [])
      [(mkRoom 0 0, none)],
   C8_failure_is_exhaustion.2.2.2.2 2 (mkRoom 0 0) [mkRoom 3 0] (fun _ => 1)
      (by decide) (by decide)⟩

/-- C9: for a fixed origin, goal set and pure cost collaborator, the
success/failure outcome of `find_route` is the same under any two
enumeration orders of the connectivity provider's exit directions (and in
particular across repeated identical invocations). -/
theorem C9_outcome_order_independent :
    ∀ (origin : RoomName) (goals : List RoomName) (cost : RoomName → Nat)
      (exits1 exits2 : RoomName → List Direction),
      (∀ r, (exits1 r).Perm (exits2 r)) →
      (Succeeds origin goals cost exits1 ↔ Succeeds origin goals cost exits2) ∧
      (Fails origin goals cost exits1 ↔ Fails origin goals cost exits2) := by
  intro origin goals cost exits1 exits2 hp
  have hcs : CanSucceed origin goals cost exits1 ↔ CanSucceed origin goals cost exits2 := by
    constructor
    · rintro ⟨g, h1, h2, h3⟩
      exact ⟨g, h1, h2, reachable_perm hp h3⟩
    · rintro ⟨g, h1, h2, h3⟩
      exact ⟨g, h1, h2, reachable_perm (fun r => (hp r).symm) h3⟩
  have hs : Succeeds origin goals cost exits1 ↔ Succeeds origin goals cost exits2 :=
    (succeeds_iff_canSucceed origin goals cost exits1).trans
      (hcs.trans (succeeds_iff_canSucceed origin goals cost exits2).symm)
  refine ⟨hs, ?_⟩
  rw [fails_iff_not_succeeds, fails_iff_not_succeeds]
  exact not_congr hs

/-- Witness for C9: the two cardinal-exit enumerations in opposite orders
give the same success/failure outcome. -/
theorem C9_outcome_order_independent_witness :
    (Succeeds (mkRoom 0 0) [mkRoom 2 0] (fun _ => 1)
        (fun _ => [Direction.top, Direction.right]) ↔
      Succeeds (mkRoom 0 0) [mkRoom 2 0] (fun _ => 1)
        (fun _ => [Direction.right, Direction.top])) ∧
    (Fails (mkRoom 0 0) [mkRoom 2 0] (fun _ => 1)
        (fun _ => [Direction.top, Direction.right]) ↔
      Fails (mkRoom 0 0) [mkRoom 2 0] (fun _ => 1)
        (fun _ => [Direction.right, Direction.top])) :=
  C9_outcome_order_independent (mkRoom 0 0) [mkRoom 2 0] (fun _ => 1)
    (fun _ => [Direction.top, Direction.right])
    (fun _ => [Direction.right, Direction.top])
    (fun _ => List.Perm.swap Direction.right Direction.top [])

/-- The state reached after one loop iteration when the goal set is empty:
the first discovered neighbor's entry has a wrapped-around `f_score`. -/
def overflowState : SearchState :=
  { open_set := [⟨mkRoom 1 0, 1, 0, some Direction.right⟩],
    visited := [(mkRoom 1 0, some Direction.right), (mkRoom 0 0, none)] }

/-- C10: with a nonempty goal set, the `u32` addition
`g_score + heuristic_cost` in `PortalRouterOpenSetEntry::new` never
overflows during a run (every frontier entry of every reachable state
satisfies `g_score + heuristic < 2^32`, so the wrap-around branch is
unreachable); with an empty goal set, the heuristic is `u32::MAX` and the
addition already overflows for the first discovered passable neighbor. -/
theorem C10_score_addition_no_overflow :
    (∀ (origin : RoomName) (goals : List RoomName) (cost : RoomName → Nat)
      (exits : RoomName → List Direction) (s : SearchState),
      goals ≠ [] →
      RunReach origin goals cost exits s →
      ∀ e ∈ s.open_set,
        e.g_score + get_heuristic_cost_to_closest_goal e.room goals < u32Mod) ∧
    (RunReach (mkRoom 0 0) [] (fun _ => 1) (fun _ => [Direction.right]) overflowState ∧
      ∀ e ∈ overflowState.open_set,
        u32Mod ≤ e.g_score + get_heuristic_cost_to_closest_goal e.room [] ∧
        e.f_score ≠ e.g_score + get_heuristic_cost_to_closest_goal e.room []) := by
  constructor
  · intro origin goals cost exits s hne hs e he
    have hinv := runReach_inv hs
    have hg : e.g_score ≤ 254 * (s.visited.length - 1) := hinv.gBound e he
    have hlen : s.visited.length ≤ 65536 := visited_length_le hinv
    have hh : get_heuristic_cost_to_closest_goal e.room goals ≤ 510 :=
      heuristic_le_of_nonempty e.room hne
    have hmod : u32Mod = 4294967296 := rfl
    omega
  · constructor
    · refine Relation.ReflTransGen.single ?_
      exact @RunStep.mk [] (fun _ => 1) (fun _ => [Direction.right])
        (initState (mkRoom 0 0) [])
        (PortalRouterOpenSetEntry.new (mkRoom 0 0) 0 none []) []
        overflowState rfl rfl
    · intro e he
      rcases List.mem_cons.mp he with h | h
      · subst h
        exact ⟨by decide, by decide⟩
      · cases h

/-- Witness for the nonempty-goal-set half of C10, at the initial entry of
a concrete run. -/
theorem C10_score_addition_no_overflow_witness :
    (PortalRouterOpenSetEntry.new (mkRoom 0 0) 0 none [mkRoom 2 0]).g_score +
      get_heuristic_cost_to_closest_goal
        (PortalRouterOpenSetEntry.new (mkRoom 0 0) 0 none [mkRoom 2 0]).room
        [mkRoom 2 0] < u32Mod :=
  C10_score_addition_no_overflow.1 (mkRoom 0 0) [mkRoom 2 0] (fun _ => 1) fullExits
    (initState (mkRoom 0 0) [mkRoom 2 0]) (by decide) Relation.ReflTransGen.refl
    (PortalRouterOpenSetEntry.new (mkRoom 0 0) 0 none [mkRoom 2 0]) (by decide)

/-- Concrete grid scenario of the spec (supporting fact for the testable
properties): origin `(0,0)`, goal set `{(2,0)}`, fully connected grid,
uniform cost 1 — success with exactly the three rooms `(0,0)`, `(1,0)`,
`(2,0)`. -/
theorem find_route_grid_scenario :
    find_route 5 (mkRoom 0 0) [mkRoom 2 0] (fun _ => 1) fullExits =
      some (Except.ok [mkRoom 0 0, mkRoom 1 0, mkRoom 2 0]) ∧
    [mkRoom 0 0, mkRoom 1 0, mkRoom 2 0].length = 3 ∧
    ([mkRoom 0 0, mkRoom 1 0, mkRoom 2 0] : List RoomName).Nodup := by
  exact ⟨rfl, rfl, by decide⟩

/-! ### The fully connected unit-cost grid: Manhattan geometry -/

/-- Manhattan distance between two rooms. -/
def manhattanDist (a b : RoomName) : Nat :=
  (a.x_coord - b.x_coord).natAbs + (a.y_coord - b.y_coord).natAbs

theorem manhattanDist_eq_zero {a b : RoomName} (h : manhattanDist a b = 0) : a = b := by
  unfold manhattanDist at h
  apply RoomName.eq_of_coords <;> omega

theorem manhattanDist_triangle (a b c : RoomName) :
    manhattanDist a c ≤ manhattanDist a b + manhattanDist b c := by
  unfold manhattanDist
  omega

/-- The four cardinal directions, the only values the full-grid connectivity
provider reports. -/
def cardinal (d : Direction) : Prop :=
  d = Direction.top ∨ d = Direction.right ∨ d = Direction.bottom ∨ d = Direction.left

theorem fullExits_cardinal {r : RoomName} {d : Direction} (h : d ∈ fullExits r) :
    cardinal d := by
  unfold fullExits at h
  unfold cardinal
  simp only [List.mem_cons, List.not_mem_nil, or_false] at h
  tauto

/-- A cardinal step moves Manhattan distance exactly one. -/
theorem manhattanDist_checked_add {a b : RoomName} {d : Direction}
    (hc : cardinal d) (h : a.checked_add d.offset = some b) :
    manhattanDist a b = 1 := by
  obtain ⟨hx, hy⟩ := RoomName.coords_of_checked_add h
  unfold manhattanDist
  rcases hc with h1 | h1 | h1 | h1 <;> subst h1 <;>
    simp only [Direction.offset] at hx hy <;> omega

theorem manhattanDist_checked_add_neg {a b : RoomName} {d : Direction}
    (hc : cardinal d) (h : a.checked_add d.neg.offset = some b) :
    manhattanDist a b = 1 := by
  obtain ⟨hx, hy⟩ := RoomName.coords_of_checked_add h
  unfold manhattanDist
  rcases hc with h1 | h1 | h1 | h1 <;> subst h1 <;>
    simp only [Direction.neg, Direction.offset] at hx hy <;> omega

/-- Toward-step: from any room at positive Manhattan distance from `g`
there is a cardinal exit whose in-range neighbor is one step closer to `g`. -/
theorem toward_step {a g : RoomName} (h : 1 ≤ manhattanDist a g) :
    ∃ (d : Direction) (b : RoomName), d ∈ fullExits a ∧
      a.checked_add d.offset = some b ∧
      manhattanDist b g = manhattanDist a g - 1 := by
  have hax := a.x_coord_range
  have hay := a.y_coord_range
  have hgx := g.x_coord_range
  have hgy := g.y_coord_range
  rcases lt_trichotomy a.x_coord g.x_coord with hx | hx | hx
  · obtain ⟨b, hb⟩ := @RoomName.checked_add_of_range a Direction.right.offset
      (by simp [Direction.offset]; omega) (by simp [Direction.offset]; omega)
      (by simp [Direction.offset]; omega) (by simp [Direction.offset]; omega)
    obtain ⟨hbx, hby⟩ := RoomName.coords_of_checked_add hb
    refine ⟨Direction.right, b, by unfold fullExits; simp, hb, ?_⟩
    simp only [Direction.offset] at hbx hby
    unfold manhattanDist at h ⊢
    omega
  · rcases lt_trichotomy a.y_coord g.y_coord with hy | hy | hy
    · obtain ⟨b, hb⟩ := @RoomName.checked_add_of_range a Direction.bottom.offset
        (by simp [Direction.offset]; omega) (by simp [Direction.offset]; omega)
        (by simp [Direction.offset]; omega) (by simp [Direction.offset]; omega)
      obtain ⟨hbx, hby⟩ := RoomName.coords_of_checked_add hb
      refine ⟨Direction.bottom, b, by unfold fullExits; simp, hb, ?_⟩
      simp only [Direction.offset] at hbx hby
      unfold manhattanDist at h ⊢
      omega
    · exfalso
      unfold manhattanDist at h
      omega
    · obtain ⟨b, hb⟩ := @RoomName.checked_add_of_range a Direction.top.offset
        (by simp [Direction.offset]; omega) (by simp [Direction.offset]; omega)
        (by simp [Direction.offset]; omega) (by simp [Direction.offset]; omega)
      obtain ⟨hbx, hby⟩ := RoomName.coords_of_checked_add hb
      refine ⟨Direction.top, b, by unfold fullExits; simp, hb, ?_⟩
      simp only [Direction.offset] at hbx hby
      unfold manhattanDist at h ⊢
      omega
  · obtain ⟨b, hb⟩ := @RoomName.checked_add_of_range a Direction.left.offset
      (by simp [Direction.offset]; omega) (by simp [Direction.offset]; omega)
      (by simp [Direction.offset]; omega) (by simp [Direction.offset]; omega)
    obtain ⟨hbx, hby⟩ := RoomName.coords_of_checked_add hb
    refine ⟨Direction.left, b, by unfold fullExits; simp, hb, ?_⟩
    simp only [Direction.offset] at hbx hby
    unfold manhattanDist at h ⊢
    omega

/-- General shape of the heuristic fold: the result never exceeds the seed or
any scanned distance, and is either the seed itself or one of the scanned
distances. -/
theorem heuristic_fold_spec (room : RoomName) (goals : List RoomName) (init : Nat) :
    (∀ g ∈ goals,
      goals.foldl
        (fun lowest_cost goal =>
          if (room.x_coord - goal.x_coord).natAbs + (room.y_coord - goal.y_coord).natAbs
              < lowest_cost
          then (room.x_coord - goal.x_coord).natAbs + (room.y_coord - goal.y_coord).natAbs
          else lowest_cost) init ≤ manhattanDist room g) ∧
    (goals.foldl
        (fun lowest_cost goal =>
          if (room.x_coord - goal.x_coord).natAbs + (room.y_coord - goal.y_coord).natAbs
              < lowest_cost
          then (room.x_coord - goal.x_coord).natAbs + (room.y_coord - goal.y_coord).natAbs
          else lowest_cost) init = init ∨
      ∃ g ∈ goals,
        goals.foldl
          (fun lowest_cost goal =>
            if (room.x_coord - goal.x_coord).natAbs + (room.y_coord - goal.y_coord).natAbs
                < lowest_cost
            then (room.x_coord - goal.x_coord).natAbs + (room.y_coord - goal.y_coord).natAbs
            else lowest_cost) init = manhattanDist room g) := by
  induction goals generalizing init with
  | nil => exact ⟨fun g hg => absurd hg (List.not_mem_nil g), Or.inl rfl⟩
  | cons a rest ih =>
    simp only [List.foldl]
    constructor
    · intro g hg
      rcases List.mem_cons.mp hg with h | h
      · subst h
        split
        · rename_i hlt
          exact Nat.le_trans (heuristic_fold_le_init room rest _) (Nat.le_refl _)
        · rename_i hlt
          unfold manhattanDist
          exact Nat.le_trans (heuristic_fold_le_init room rest _) (by omega)
      · exact (ih _).1 g h
    · split
      · rcases (ih _).2 with h | ⟨g, hg, hgeq⟩
        · exact Or.inr ⟨a, List.mem_cons_self a rest, by rw [h]; rfl⟩
        · exact Or.inr ⟨g, List.mem_cons_of_mem a hg, hgeq⟩
      · rcases (ih _).2 with h | ⟨g, hg, hgeq⟩
        · exact Or.inl h
        · exact Or.inr ⟨g, List.mem_cons_of_mem a hg, hgeq⟩

/-- The heuristic never exceeds the Manhattan distance to any particular goal. -/
theorem heuristic_le_mem {goals : List RoomName} {g : RoomName} (room : RoomName)
    (hg : g ∈ goals) :
    get_heuristic_cost_to_closest_goal room goals ≤ manhattanDist room g :=
  (heuristic_fold_spec room goals u32MAX).1 g hg

/-- With a nonempty goal set the heuristic is realized by some goal. -/
theorem heuristic_realized {goals : List RoomName} (room : RoomName) (h : goals ≠ []) :
    ∃ g ∈ goals, get_heuristic_cost_to_closest_goal room goals = manhattanDist room g := by
  rcases (heuristic_fold_spec room goals u32MAX).2 with heq | hex
  · exfalso
    cases goals with
    | nil => exact h rfl
    | cons a rest =>
      have h1 : get_heuristic_cost_to_closest_goal room (a :: rest) ≤ manhattanDist room a :=
        heuristic_le_mem room (List.mem_cons_self a rest)
      have h2 : manhattanDist room a ≤ 510 := by
        have hx1 := room.x_coord_range
        have hx2 := a.x_coord_range
        have hy1 := room.y_coord_range
        have hy2 := a.y_coord_range
        unfold manhattanDist
        omega
      unfold get_heuristic_cost_to_closest_goal at h1
      unfold u32MAX at heq h1
      omega
  · exact hex

/-! ### Ledger depth: the number of backpointer steps from a room to the
ledger entry with no recorded direction -/

/-- Relational depth of a room in a ledger: `DepthIs l r n` holds when the
backward walk of `resolve_completed_path` starting at `r` reaches an entry
with no recorded direction after exactly `n` inverse-direction steps. -/
inductive DepthIs (l : Ledger) : RoomName → Nat → Prop where
  | zero {r : RoomName} :
      lookupLedger l r = some none → DepthIs l r 0
  | succ {r p : RoomName} {d : Direction} {n : Nat} :
      lookupLedger l r = some (some d) →
      r.checked_add d.neg.offset = some p →
      DepthIs l p n →
      DepthIs l r (n + 1)

theorem depth_unique {l : Ledger} {r : RoomName} {n m : Nat}
    (h1 : DepthIs l r n) (h2 : DepthIs l r m) : n = m := by
  induction h1 generalizing m with
  | zero hl =>
    cases h2 with
    | zero _ => rfl
    | succ hl' _ _ => rw [hl] at hl'; cases hl'
  | succ hl hadd hp ih =>
    cases h2 with
    | zero hl' => rw [hl] at hl'; cases hl'
    | succ hl' hadd' hp' =>
      rw [hl] at hl'
      cases hl'
      rw [hadd] at hadd'
      cases hadd'
      rw [ih hp']

/-- Depth is stable under recording a fresh room: the walk never meets the
new entry. -/
theorem depth_lift {l : Ledger} {q : RoomName} {od : Option Direction}
    {r : RoomName} {n : Nat}
    (hq : containsKey l q = false) (h : DepthIs l r n) :
    DepthIs ((q, od) :: l) r n := by
  induction h with
  | zero hl =>
    rename_i r0
    refine DepthIs.zero ?_
    have hne : r0 ≠ q := by
      intro he
      subst he
      have : containsKey l r0 = true := by simp [containsKey, hl]
      rw [this] at hq
      cases hq
    simp only [lookupLedger]
    rw [if_neg hne]
    exact hl
  | succ hl hadd hp ih =>
    rename_i r0 p0 d0 n0
    refine DepthIs.succ ?_ hadd ih
    have hne : r0 ≠ q := by
      intro he
      subst he
      have : containsKey l r0 = true := by simp [containsKey, hl]
      rw [this] at hq
      cases hq
    simp only [lookupLedger]
    rw [if_neg hne]
    exact hl

/-- On a well-formed ledger with distinct keys, every recorded room has a
depth. -/
theorem depth_exists {origin : RoomName} {cost : RoomName → Nat} {l : Ledger}
    (hchain : LedgerChain origin cost l)
    (hnodup : (l.map Prod.fst).Nodup) :
    ∀ (k : Nat) (r : RoomName), containsKey l r = true → l.length - keyRank l r ≤ k →
      ∃ n, DepthIs l r n := by
  intro k
  induction k with
  | zero =>
    intro r hr hk
    exact absurd (keyRank_lt_length hr) (by omega)
  | succ k ih =>
    intro r hr hk
    cases hlook : lookupLedger l r with
    | none => simp [containsKey, hlook] at hr
    | some od =>
      cases od with
      | none => exact ⟨0, DepthIs.zero hlook⟩
      | some d =>
        obtain ⟨p, hp1, hp2, hrank, _⟩ := chain_extract hchain hnodup hlook
        have hlt : l.length - keyRank l p ≤ k := by
          have := keyRank_lt_length hr
          omega
        obtain ⟨n, hn⟩ := ih p hp2 hlt
        exact ⟨n + 1, DepthIs.succ hlook hp1 hn⟩

/-- The depth of a room is bounded by the positions behind it in the ledger. -/
theorem depth_rank_bound {origin : RoomName} {cost : RoomName → Nat} {l : Ledger}
    (hchain : LedgerChain origin cost l)
    (hnodup : (l.map Prod.fst).Nodup)
    {r : RoomName} {n : Nat} (h : DepthIs l r n) :
    n + keyRank l r < l.length := by
  induction h with
  | zero hl =>
    rename_i r0
    have h1 : containsKey l r0 = true := by simp [containsKey, hl]
    have := keyRank_lt_length h1
    omega
  | succ hl hadd hp ih =>
    obtain ⟨p', hp1, hp2, hrank, _⟩ := chain_extract hchain hnodup hl
    rw [hadd] at hp1
    cases hp1
    omega

theorem manhattanDist_self (a : RoomName) : manhattanDist a a = 0 := by
  unfold manhattanDist
  omega

theorem manhattanDist_comm (a b : RoomName) :
    manhattanDist a b = manhattanDist b a := by
  unfold manhattanDist
  omega

/-- When every recorded direction is cardinal and every direction-free entry
is the origin, depth dominates the Manhattan distance from the origin. -/
theorem depth_ge_manhattan {origin : RoomName} {l : Ledger}
    (hcard : ∀ pr ∈ l, ∀ d : Direction, pr.2 = some d → cardinal d)
    (hnone : ∀ pr ∈ l, pr.2 = (none : Option Direction) → pr.1 = origin)
    {r : RoomName} {n : Nat} (h : DepthIs l r n) :
    manhattanDist origin r ≤ n := by
  induction h with
  | zero hl =>
    have hmem := lookupLedger_mem hl
    have := hnone _ hmem rfl
    simp only at this
    rw [this, manhattanDist_self]
  | succ hl hadd hp ih =>
    rename_i r0 p0 d0 n0
    have hmem := lookupLedger_mem hl
    have hc : cardinal d0 := hcard _ hmem d0 rfl
    have h1 : manhattanDist r0 p0 = 1 := manhattanDist_checked_add_neg hc hadd
    have := manhattanDist_triangle origin p0 r0
    rw [manhattanDist_comm p0 r0] at this
    have := manhattanDist_triangle origin r0 p0
    omega

/-- Length of the reconstruction walk: starting from a room of depth `n`
with a duplicate-free accumulator whose other members were all inserted
later in the ledger than the cursor, the walk adds exactly the `n` strict
ancestors of the cursor. -/
theorem resolve_loop_length {origin : RoomName} {cost : RoomName → Nat} {l : Ledger}
    (hchain : LedgerChain origin cost l)
    (hnodup : (l.map Prod.fst).Nodup) :
    ∀ {cursor : RoomName} {n : Nat}, DepthIs l cursor n →
    ∀ (acc : List RoomName) (fuel : Nat),
      cursor ∈ acc →
      acc.Nodup →
      (∀ y ∈ acc, y = cursor ∨ (containsKey l y = true → keyRank l y < keyRank l cursor)) →
      n < fuel →
      ∃ path, resolve_loop l fuel cursor acc = some path ∧
        path.length = acc.length + n ∧ path.Nodup := by
  intro cursor n h
  induction h with
  | zero hl =>
    intro acc fuel hcur hnd hbelow hfuel
    obtain ⟨f, rfl⟩ : ∃ f, fuel = f + 1 := ⟨fuel - 1, by omega⟩
    rw [resolve_loop, hl]
    exact ⟨acc, rfl, by omega, hnd⟩
  | succ hl hadd hp ih =>
    rename_i r0 p0 d0 n0
    intro acc fuel hcur hnd hbelow hfuel
    obtain ⟨f, rfl⟩ : ∃ f, fuel = f + 1 := ⟨fuel - 1, by omega⟩
    rw [resolve_loop, hl]
    dsimp only
    rw [hadd]
    obtain ⟨p', hp1, hp2, hrank, _⟩ := chain_extract hchain hnodup hl
    rw [hadd] at hp1
    cases hp1
    have hpfresh : p0 ∉ acc := by
      intro hmem
      rcases hbelow p0 hmem with h | h
      · subst h
        omega
      · have := h hp2
        omega
    have hins : pathInsert acc p0 = p0 :: acc := by
      unfold pathInsert
      rw [if_neg hpfresh]
    dsimp only
    rw [hins]
    have hbelow' : ∀ y ∈ p0 :: acc, y = p0 ∨
        (containsKey l y = true → keyRank l y < keyRank l p0) := by
      intro y hy
      rcases List.mem_cons.mp hy with h | h
      · exact Or.inl h
      · rcases hbelow y h with h1 | h1
        · subst h1
          exact Or.inr (fun _ => hrank)
        · exact Or.inr (fun hc => Nat.lt_trans (h1 hc) hrank)
    obtain ⟨path, hres, hlen, hpnd⟩ := ih (p0 :: acc) f (List.mem_cons_self _ _)
      (List.nodup_cons.mpr ⟨hpfresh, hnd⟩) hbelow' (by omega)
    refine ⟨path, hres, ?_, hpnd⟩
    simp only [List.length_cons] at hlen
    omega

/-- The popped entry carries a minimal `f_score` among the heap's entries. -/
theorem heap_pop_min {l : List PortalRouterOpenSetEntry}
    {e : PortalRouterOpenSetEntry} {rest : List PortalRouterOpenSetEntry}
    (h : heap_pop l = some (e, rest)) : ∀ u ∈ l, e.f_score ≤ u.f_score := by
  induction l generalizing e rest with
  | nil => cases h
  | cons a tl ih =>
    simp only [heap_pop] at h
    cases htl : heap_pop tl <;> rw [htl] at h
    · cases h
      have : tl = [] := heap_pop_eq_none.mp htl
      subst this
      intro u hu
      rcases List.mem_cons.mp hu with h | h
      · rw [h]
      · cases h
    · rename_i pr
      cases pr with
      | mk e' rest' =>
        dsimp only at h
        split at h
        · rename_i hle
          cases h
          intro u hu
          rcases List.mem_cons.mp hu with h | h
          · rw [h]
          · exact Nat.le_trans hle (ih htl u h)
        · rename_i hgt
          cases h
          intro u hu
          rcases List.mem_cons.mp hu with h | h
          · rw [h]
            omega
          · exact ih htl u h

theorem depth_containsKey {l : Ledger} {r : RoomName} {n : Nat}
    (h : DepthIs l r n) : containsKey l r = true := by
  cases h with
  | zero hl => simp [containsKey, hl]
  | succ hl _ _ => simp [containsKey, hl]

/-- With duplicate-free keys, membership determines the lookup result. -/
theorem lookup_of_mem_nodup {l : Ledger}
    (hnodup : (l.map Prod.fst).Nodup)
    {r : RoomName} {od : Option Direction} (h : (r, od) ∈ l) :
    lookupLedger l r = some od := by
  induction l with
  | nil => cases h
  | cons pr rest ih =>
    cases pr with
    | mk r0 od0 =>
      rcases List.mem_cons.mp h with h1 | h1
      · cases h1
        simp [lookupLedger]
      · have hne : r ≠ r0 := by
          intro he
          subst he
          exact (List.nodup_cons.mp hnodup).1
            (List.mem_map.mpr ⟨(r, od), h1, rfl⟩)
        simp only [lookupLedger]
        rw [if_neg hne]
        exact ih (List.nodup_cons.mp hnodup).2 h1

/-! ### The grid invariant: exact scores on the unit-cost full grid -/

/-- Extra invariant of the search on the fully connected grid with unit
costs: frontier g-scores equal the ledger depth of their rooms, f-scores
are the exact (non-wrapped) sum `g + h`, every recorded direction is
cardinal, and every visited room with a recorded direction has a parent
whose depth-plus-heuristic never exceeds the origin's own heuristic
estimate (the distance to the nearest goal). -/
structure GridInv (origin : RoomName) (goals : List RoomName) (s : SearchState) : Prop where
  g2 : ∀ e ∈ s.open_set, DepthIs s.visited e.room e.g_score
  g7 : ∀ e ∈ s.open_set,
      e.f_score = e.g_score + get_heuristic_cost_to_closest_goal e.room goals
  g8 : ∀ pr ∈ s.visited, ∀ d : Direction, pr.2 = some d → cardinal d
  g4 : ∀ pr ∈ s.visited, ∀ d : Direction, pr.2 = some d →
      ∃ (p : RoomName) (np : Nat), pr.1.checked_add d.neg.offset = some p ∧
        containsKey s.visited p = true ∧
        DepthIs s.visited p np ∧
        np + get_heuristic_cost_to_closest_goal p goals ≤
          get_heuristic_cost_to_closest_goal origin goals

/-- The grid invariant at the initial state. -/
theorem grid_inv_init (origin : RoomName) (goals : List RoomName)
    (hgoals : goals ≠ []) :
    GridInv origin goals (initState origin goals) := by
  constructor
  · intro e he
    simp only [initState, List.mem_singleton] at he
    subst he
    show DepthIs [(origin, none)] origin 0
    exact DepthIs.zero (by simp [lookupLedger])
  · intro e he
    simp only [initState, List.mem_singleton] at he
    subst he
    show (0 + get_heuristic_cost_to_closest_goal origin goals) % u32Mod =
      0 + get_heuristic_cost_to_closest_goal origin goals
    have := heuristic_le_of_nonempty origin hgoals
    rw [Nat.mod_eq_of_lt (by unfold u32Mod; omega)]
  · intro pr hpr d hd
    simp only [initState, List.mem_singleton] at hpr
    subst hpr
    cases hd
  · intro pr hpr d hd
    simp only [initState, List.mem_singleton] at hpr
    subst hpr
    cases hd

/-- The grid invariant only depends on the heap's entries, not their
arrangement. -/
theorem grid_inv_perm {origin : RoomName} {goals : List RoomName} {s : SearchState}
    {l' : List PortalRouterOpenSetEntry}
    (hg : GridInv origin goals s) (hperm : s.open_set.Perm l') :
    GridInv origin goals { open_set := l', visited := s.visited } := by
  constructor
  · intro e he
    exact hg.g2 e (hperm.mem_iff.mpr he)
  · intro e he
    exact hg.g7 e (hperm.mem_iff.mpr he)
  · exact hg.g8
  · exact hg.g4

/-- Discovering a fresh passable non-goal neighbor on the grid preserves the
grid invariant. -/
theorem grid_insert_push
    {origin : RoomName} {goals : List RoomName}
    {e0 : PortalRouterOpenSetEntry} {opens : List PortalRouterOpenSetEntry}
    {vis : Ledger} {adj : RoomName} {d : Direction}
    (hinv : SearchInv origin goals (fun _ => 1) fullExits
      { open_set := e0 :: opens, visited := vis })
    (hg : GridInv origin goals { open_set := e0 :: opens, visited := vis })
    (hf0 : e0.g_score + get_heuristic_cost_to_closest_goal e0.room goals ≤
      get_heuristic_cost_to_closest_goal origin goals)
    (hgoals : goals ≠ [])
    (hadd : e0.room.checked_add d.offset = some adj)
    (hd : d ∈ fullExits e0.room)
    (hfresh : containsKey vis adj = false) :
    GridInv origin goals
      { open_set := e0 ::
          PortalRouterOpenSetEntry.new adj ((e0.g_score + 1) % u32Mod)
            (some d) goals :: opens,
        visited := (adj, some d) :: vis } := by
  have he0mem : e0 ∈ e0 :: opens := List.mem_cons_self _ _
  have hvlen : vis.length ≤ 65536 := visited_length_le hinv
  have hgb : e0.g_score ≤ 254 * (vis.length - 1) := hinv.gBound e0 he0mem
  have hgsmall : e0.g_score ≤ 254 * 65535 := by omega
  have hnowrap : e0.g_score + 1 < u32Mod := by unfold u32Mod; omega
  have hgmod : (e0.g_score + 1) % u32Mod = e0.g_score + 1 := Nat.mod_eq_of_lt hnowrap
  have hpar : adj.checked_add d.neg.offset = some e0.room := RoomName.checked_add_symm hadd
  have hdep0 : DepthIs vis e0.room e0.g_score := hg.g2 e0 he0mem
  have hdep0' : DepthIs ((adj, some d) :: vis) e0.room e0.g_score :=
    depth_lift hfresh hdep0
  have hlookadj : lookupLedger ((adj, some d) :: vis) adj = some (some d) := by
    simp [lookupLedger]
  have hdepadj : DepthIs ((adj, some d) :: vis) adj (e0.g_score + 1) :=
    DepthIs.succ hlookadj hpar hdep0'
  have hcardd : cardinal d := fullExits_cardinal hd
  have hhn : get_heuristic_cost_to_closest_goal adj goals ≤ 510 :=
    heuristic_le_of_nonempty adj hgoals
  constructor
  · intro e he
    rcases List.mem_cons.mp he with h | h
    · rw [h]
      exact hdep0'
    · rcases List.mem_cons.mp h with h | h
      · rw [h]
        show DepthIs _ adj ((e0.g_score + 1) % u32Mod)
        rw [hgmod]
        exact hdepadj
      · exact depth_lift hfresh (hg.g2 e (List.mem_cons_of_mem _ h))
  · intro e he
    rcases List.mem_cons.mp he with h | h
    · rw [h]
      exact hg.g7 e0 he0mem
    · rcases List.mem_cons.mp h with h | h
      · rw [h]
        show ((e0.g_score + 1) % u32Mod +
            get_heuristic_cost_to_closest_goal adj goals) % u32Mod =
          (e0.g_score + 1) % u32Mod + get_heuristic_cost_to_closest_goal adj goals
        rw [hgmod]
        rw [Nat.mod_eq_of_lt (by unfold u32Mod; omega)]
      · exact hg.g7 e (List.mem_cons_of_mem _ h)
  · intro pr hpr d' hd'
    rcases List.mem_cons.mp hpr with h | h
    · rw [h] at hd'
      cases hd'
      exact hcardd
    · exact hg.g8 pr h d' hd'
  · intro pr hpr d' hd'
    rcases List.mem_cons.mp hpr with h | h
    · rw [h] at hd' ⊢
      cases hd'
      exact ⟨e0.room, e0.g_score, hpar,
        containsKey_mono (hinv.heapSub e0 he0mem), hdep0', hf0⟩
    · obtain ⟨p, np, hp1, hp2, hp3, hp4⟩ := hg.g4 pr h d' hd'
      exact ⟨p, np, hp1, containsKey_mono hp2, depth_lift hfresh hp3, hp4⟩

/-- Processing exit directions on the grid preserves the grid invariant when
the iteration continues. -/
theorem process_dirs_grid_next
    {origin : RoomName} {goals : List RoomName}
    {e0 : PortalRouterOpenSetEntry} {dirs : List Direction} {s s' : SearchState}
    (hrun : process_dirs goals (fun _ => 1) e0 dirs s = .next s')
    (hinv : SearchInv origin goals (fun _ => 1) fullExits
      { open_set := e0 :: s.open_set, visited := s.visited })
    (hg : GridInv origin goals { open_set := e0 :: s.open_set, visited := s.visited })
    (hf0 : e0.g_score + get_heuristic_cost_to_closest_goal e0.room goals ≤
      get_heuristic_cost_to_closest_goal origin goals)
    (hgoals : goals ≠ [])
    (hdirs : ∀ d ∈ dirs, d ∈ fullExits e0.room) :
    GridInv origin goals { open_set := e0 :: s'.open_set, visited := s'.visited } := by
  induction dirs generalizing s with
  | nil =>
    cases hrun
    exact hg
  | cons d rest ih =>
    have hd0 : d ∈ fullExits e0.room := hdirs d (List.mem_cons_self _ _)
    have hdrest : ∀ d' ∈ rest, d' ∈ fullExits e0.room :=
      fun d' hd' => hdirs d' (List.mem_cons_of_mem _ hd')
    simp only [process_dirs] at hrun
    split at hrun
    · exact ih hrun hinv hg hdrest
    · cases hadd : e0.room.checked_add d.offset with
      | none =>
        rw [hadd] at hrun
        exact ih hrun hinv hg hdrest
      | some adj =>
        rw [hadd] at hrun
        simp only [] at hrun
        split at hrun
        · exact ih hrun hinv hg hdrest
        · rename_i hnotvis
          have hfresh : containsKey s.visited adj = false := by
            revert hnotvis
            cases containsKey s.visited adj <;> simp
          split at hrun
          · cases hrun
          · rename_i hngoal
            split at hrun
            · rename_i hc
              have hinv2 := inv_insert_push hinv hadd hd0 hfresh hngoal hc
              have hg2 := grid_insert_push hinv hg hf0 hgoals hadd hd0 hfresh
              exact ih hrun hinv2 hg2 hdrest
            · rename_i hc
              exact absurd (by simp [u8MAX]) hc

/-- Processing exit directions on the grid, when a goal is found: the
discovered goal is a fresh cardinal neighbor of the popped entry, and the
ledger at that moment is well-formed with cardinal directions and carries
the popped room at its recorded depth. -/
theorem process_dirs_grid_found
    {origin : RoomName} {goals : List RoomName}
    {e0 : PortalRouterOpenSetEntry} {dirs : List Direction} {s : SearchState}
    {g : RoomName} {vis' : Ledger}
    (hrun : process_dirs goals (fun _ => 1) e0 dirs s = .found g vis')
    (hinv : SearchInv origin goals (fun _ => 1) fullExits
      { open_set := e0 :: s.open_set, visited := s.visited })
    (hg : GridInv origin goals { open_set := e0 :: s.open_set, visited := s.visited })
    (hf0 : e0.g_score + get_heuristic_cost_to_closest_goal e0.room goals ≤
      get_heuristic_cost_to_closest_goal origin goals)
    (hgoals : goals ≠ [])
    (hdirs : ∀ d ∈ dirs, d ∈ fullExits e0.room) :
    ∃ (d : Direction) (vism : Ledger),
      vis' = (g, some d) :: vism ∧
      cardinal d ∧
      g ∈ goals ∧
      containsKey vism g = false ∧
      e0.room.checked_add d.offset = some g ∧
      DepthIs vism e0.room e0.g_score ∧
      (∀ pr ∈ vism, ∀ d0 : Direction, pr.2 = some d0 → cardinal d0) ∧
      (∀ pr ∈ vism, pr.2 = (none : Option Direction) → pr.1 = origin) ∧
      LedgerChain origin (fun _ => 1) vism ∧
      (vism.map Prod.fst).Nodup ∧
      containsKey vism e0.room = true := by
  induction dirs generalizing s with
  | nil => cases hrun
  | cons d rest ih =>
    have hd0 : d ∈ fullExits e0.room := hdirs d (List.mem_cons_self _ _)
    have hdrest : ∀ d' ∈ rest, d' ∈ fullExits e0.room :=
      fun d' hd' => hdirs d' (List.mem_cons_of_mem _ hd')
    simp only [process_dirs] at hrun
    split at hrun
    · exact ih hrun hinv hg hdrest
    · cases hadd : e0.room.checked_add d.offset with
      | none =>
        rw [hadd] at hrun
        exact ih hrun hinv hg hdrest
      | some adj =>
        rw [hadd] at hrun
        simp only [] at hrun
        split at hrun
        · exact ih hrun hinv hg hdrest
        · rename_i hnotvis
          have hfresh : containsKey s.visited adj = false := by
            revert hnotvis
            cases containsKey s.visited adj <;> simp
          split at hrun
          · rename_i hgoal
            cases hrun
            exact ⟨d, s.visited, rfl, fullExits_cardinal hd0, hgoal, hfresh, hadd,
              hg.g2 e0 (List.mem_cons_self _ _),
              hg.g8, hinv.noneIsOrigin, hinv.chain, hinv.keysNodup,
              hinv.heapSub e0 (List.mem_cons_self _ _)⟩
          · rename_i hngoal
            split at hrun
            · rename_i hc
              have hinv2 := inv_insert_push hinv hadd hd0 hfresh hngoal hc
              have hg2 := grid_insert_push hinv hg hf0 hgoals hadd hd0 hfresh
              exact ih hrun hinv2 hg2 hdrest
            · rename_i hc
              exact absurd (by simp [u8MAX]) hc

/-- Key lemma for the grid analysis: in every invariant-satisfying state of
the unit-cost full-grid search whose goals avoid the origin, the frontier
holds an entry whose f-score is at most the origin's heuristic estimate
(the Manhattan distance to the nearest goal).  Proved by strong induction
on the distance from a "taut" visited room (depth plus remaining distance
within the estimate) to a goal. -/
theorem frontier_holds_taut_entry
    {origin : RoomName} {goals : List RoomName} {s : SearchState}
    (hgoals : goals ≠ []) (horig : origin ∉ goals)
    (hinv : SearchInv origin goals (fun _ => 1) fullExits s)
    (hg : GridInv origin goals s) :
    ∃ e ∈ s.open_set,
      e.f_score ≤ get_heuristic_cost_to_closest_goal origin goals := by
  have goalvis : ∀ w g : RoomName, g ∈ goals → containsKey s.visited w = true →
      manhattanDist w g = 0 → False := by
    intro w g hgg hw hM
    cases manhattanDist_eq_zero hM
    obtain ⟨od, hod⟩ := mem_of_containsKey hw
    rcases hinv.visNonGoal _ hod with h | h
    · simp only at h
      rw [h] at hgg
      exact horig hgg
    · exact h hgg
  have main : ∀ (bound k : Nat), k ≤ bound → ∀ (w g : RoomName) (nw : Nat),
      g ∈ goals → DepthIs s.visited w nw → manhattanDist w g = k →
      nw + k ≤ get_heuristic_cost_to_closest_goal origin goals →
      ∃ e ∈ s.open_set,
        e.f_score ≤ get_heuristic_cost_to_closest_goal origin goals := by
    intro bound
    induction bound with
    | zero =>
      intro k hk w g nw hgg hdep hM htaut
      exact absurd (goalvis w g hgg (depth_containsKey hdep) (by omega)) id
    | succ bound ih =>
      intro k hk w g nw hgg hdep hM htaut
      rcases Nat.eq_zero_or_pos k with hk0 | hk0
      · exact absurd (goalvis w g hgg (depth_containsKey hdep) (by omega)) id
      · have hw : containsKey s.visited w = true := depth_containsKey hdep
        obtain ⟨odw, hodw⟩ := mem_of_containsKey hw
        have hexp : Expandable origin goals (fun _ => 1) w := by
          rcases hinv.visNonGoal _ hodw with h | h
          · exact Or.inl h
          · exact Or.inr ⟨by norm_num [u8MAX], h⟩
        rcases hinv.expInv w hw hexp with ⟨e, he, her⟩ | hcov
        · refine ⟨e, he, ?_⟩
          have hfe : e.f_score =
              e.g_score + get_heuristic_cost_to_closest_goal w goals := by
            rw [hg.g7 e he, her]
          have hge : e.g_score = nw := by
            have h1 := hg.g2 e he
            rw [her] at h1
            exact depth_unique h1 hdep
          have hh := heuristic_le_mem w hgg
          omega
        · obtain ⟨d, b, hd, haddb, hMb⟩ := @toward_step w g (by omega)
          rw [hM] at hMb
          have hbvis : containsKey s.visited b = true := hcov d hd b haddb
          obtain ⟨nb, hnb⟩ := depth_exists hinv.chain hinv.keysNodup
            s.visited.length b hbvis (Nat.sub_le _ _)
          by_cases hcase :
              nb + (k - 1) ≤ get_heuristic_cost_to_closest_goal origin goals
          · exact ih (k - 1) (by omega) b g nb hgg hnb hMb hcase
          · obtain ⟨odb, hodb⟩ := mem_of_containsKey hbvis
            cases odb with
            | none =>
              have hlb : lookupLedger s.visited b = some none :=
                lookup_of_mem_nodup hinv.keysNodup hodb
              have hnb0 : nb = 0 := depth_unique hnb (DepthIs.zero hlb)
              exact absurd (by omega) hcase
            | some db =>
              have hlb : lookupLedger s.visited b = some (some db) :=
                lookup_of_mem_nodup hinv.keysNodup hodb
              obtain ⟨p, np, hp1, hp2, hp3, hp4⟩ := hg.g4 _ hodb db rfl
              have hnbsucc : DepthIs s.visited b (np + 1) :=
                DepthIs.succ hlb hp1 hp3
              have hnbe : nb = np + 1 := depth_unique hnb hnbsucc
              obtain ⟨gp, hgp, hrel⟩ := heuristic_realized p hgoals
              exact ih (manhattanDist p gp) (by omega) p gp np hgp hp3 rfl
                (by omega)
  obtain ⟨g0, hg0, hrel0⟩ := heuristic_realized origin hgoals
  have horigvis : lookupLedger s.visited origin = some none :=
    lookup_of_mem_nodup hinv.keysNodup hinv.originVisited
  exact main (manhattanDist origin g0) (manhattanDist origin g0) (Nat.le_refl _)
    origin g0 0 hg0 (DepthIs.zero horigvis) rfl (by omega)

theorem grid_drop_head {origin : RoomName} {goals : List RoomName}
    {e0 : PortalRouterOpenSetEntry} {s : SearchState}
    (hg : GridInv origin goals { open_set := e0 :: s.open_set, visited := s.visited }) :
    GridInv origin goals s := by
  constructor
  · intro e he
    exact hg.g2 e (List.mem_cons_of_mem _ he)
  · intro e he
    exact hg.g7 e (List.mem_cons_of_mem _ he)
  · exact hg.g8
  · exact hg.g4

/-- Every state of the unit-cost full-grid search satisfies the grid
invariant, provided the goal set is non-empty and avoids the origin. -/
theorem runReach_grid_inv
    {origin : RoomName} {goals : List RoomName} {s : SearchState}
    (hgoals : goals ≠ []) (horig : origin ∉ goals)
    (h : RunReach origin goals (fun _ => 1) fullExits s) :
    GridInv origin goals s := by
  induction h with
  | refl => exact grid_inv_init origin goals hgoals
  | tail hpre hstep ih =>
    have hinv1 := runReach_inv hpre
    cases hstep with
    | mk hpop hproc =>
      rename_i s1 s2 e0 rest
      have hperm := heap_pop_perm hpop
      have hinvV := inv_perm hinv1 hperm
      have hgV := grid_inv_perm ih hperm
      obtain ⟨u, hu, hule⟩ := frontier_holds_taut_entry hgoals horig hinv1 ih
      have hmin := heap_pop_min hpop u hu
      have h7 : e0.f_score =
          e0.g_score + get_heuristic_cost_to_closest_goal e0.room goals :=
        hgV.g7 e0 (List.mem_cons_self _ _)
      have hf0 : e0.g_score + get_heuristic_cost_to_closest_goal e0.room goals ≤
          get_heuristic_cost_to_closest_goal origin goals := by
        omega
      have hnext := process_dirs_grid_next hproc hinvV hgV hf0 hgoals (fun d hd => hd)
      exact grid_drop_head hnext

/-- Loop-level cardinality: on the unit-cost full grid with goals away from
the origin, a successful run returns a duplicate-free set of exactly
`manhattanDist origin g + 1` rooms, where `g` is the discovered goal. -/
theorem grid_loop_ok_card
    {origin : RoomName} {goals : List RoomName} {fuel : Nat} {s : SearchState}
    {path : List RoomName}
    (hgoals : goals ≠ []) (horig : origin ∉ goals)
    (hrun : find_route_loop goals (fun _ => 1) fullExits fuel s = some (Except.ok path))
    (hreach : RunReach origin goals (fun _ => 1) fullExits s) :
    ∃ g ∈ goals, g ∈ path ∧ origin ∈ path ∧ path.Nodup ∧
      path.length = manhattanDist origin g + 1 := by
  induction fuel generalizing s with
  | zero => cases hrun
  | succ n ih =>
    have hinv := runReach_inv hreach
    have hgi := runReach_grid_inv hgoals horig hreach
    simp only [find_route_loop] at hrun
    cases hpop : heap_pop s.open_set with
    | none =>
      rw [hpop] at hrun
      cases hrun
    | some pr =>
      cases pr with
      | mk e0 rest =>
        rw [hpop] at hrun
        dsimp only at hrun
        cases hproc : process_dirs goals (fun _ => 1) e0 (fullExits e0.room)
            { open_set := rest, visited := s.visited } with
        | next s' =>
          rw [hproc] at hrun
          exact ih hrun (Relation.ReflTransGen.tail hreach (RunStep.mk hpop hproc))
        | found g vis =>
          rw [hproc] at hrun
          dsimp only at hrun
          have hperm := heap_pop_perm hpop
          have hinvV := inv_perm hinv hperm
          have hgV := grid_inv_perm hgi hperm
          obtain ⟨u, hu, hule⟩ := frontier_holds_taut_entry hgoals horig hinv hgi
          have hmin := heap_pop_min hpop u hu
          have h7 : e0.f_score =
              e0.g_score + get_heuristic_cost_to_closest_goal e0.room goals :=
            hgV.g7 e0 (List.mem_cons_self _ _)
          have hf0 : e0.g_score + get_heuristic_cost_to_closest_goal e0.room goals ≤
              get_heuristic_cost_to_closest_goal origin goals := by
            omega
          obtain ⟨d, vism, hvis, hcardd, hggoals, hfreshg, haddg, hdepe0,
              hcardm, hnonem, hchainm, hnodupm, he0vism⟩ :=
            process_dirs_grid_found hproc hinvV hgV hf0 hgoals (fun d hd => hd)
          subst hvis
          have hpar : g.checked_add d.neg.offset = some e0.room :=
            RoomName.checked_add_symm haddg
          have hchain : LedgerChain origin (fun _ => 1) ((g, some d) :: vism) :=
            ⟨⟨e0.room, hpar, he0vism, Or.inr (by norm_num [u8MAX])⟩, hchainm⟩
          have hnodup : (((g, some d) :: vism).map Prod.fst).Nodup :=
            List.nodup_cons.mpr ⟨not_mem_fst_of_not_containsKey hfreshg, hnodupm⟩
          have hnone : ∀ pr ∈ (g, some d) :: vism,
              pr.2 = (none : Option Direction) → pr.1 = origin := by
            intro pr hpr h2
            rcases List.mem_cons.mp hpr with h | h
            · rw [h] at h2
              cases h2
            · exact hnonem pr h h2
          have hlookg : lookupLedger ((g, some d) :: vism) g = some (some d) := by
            simp [lookupLedger]
          have hdepg : DepthIs ((g, some d) :: vism) g (e0.g_score + 1) :=
            DepthIs.succ hlookg hpar (depth_lift hfreshg hdepe0)
          have hdbound := depth_rank_bound hchain hnodup hdepg
          obtain ⟨path0, hres0, hlen0, hnd0⟩ :=
            resolve_loop_length hchain hnodup hdepg [g]
              (((g, some d) :: vism).length + 1)
              (List.mem_singleton.mpr rfl) (List.nodup_singleton g)
              (fun y hy => Or.inl (List.mem_singleton.mp hy)) (by omega)
          have hcurg : containsKey ((g, some d) :: vism) g = true := by
            simp [containsKey, hlookg]
          obtain ⟨path1, hres1, hacc1, horig1, _⟩ :=
            resolve_loop_spec hchain hnodup hnone
              (((g, some d) :: vism).length + 1) g [g] hcurg
              (List.mem_singleton.mpr rfl)
              (by have := keyRank_lt_length hcurg; omega)
          have hpatheq : path1 = path0 := Option.some.inj (hres1.symm.trans hres0)
          have hresolve : resolve_completed_path g ((g, some d) :: vism) = some path0 := by
            rw [resolve_completed_path]
            exact hres0
          rw [hresolve] at hrun
          dsimp only at hrun
          cases hrun
          -- the returned path is path0
          have hMstep : manhattanDist e0.room g = 1 := manhattanDist_checked_add hcardd haddg
          have hMe0 : manhattanDist origin e0.room ≤ e0.g_score :=
            depth_ge_manhattan hcardm hnonem hdepe0
          have htri := manhattanDist_triangle origin e0.room g
          have hDle : get_heuristic_cost_to_closest_goal origin goals ≤
              manhattanDist origin g := heuristic_le_mem origin hggoals
          have hge1 : 1 ≤ get_heuristic_cost_to_closest_goal e0.room goals := by
            by_contra h0
            push_neg at h0
            obtain ⟨g0, hg0, hrel⟩ := heuristic_realized e0.room hgoals
            have hz : manhattanDist e0.room g0 = 0 := by omega
            have heq0 : e0.room = g0 := manhattanDist_eq_zero hz
            rcases hinvV.heapExp e0 (List.mem_cons_self _ _) with h | h
            · rw [h] at heq0
              rw [← heq0] at hg0
              exact horig hg0
            · rw [← heq0] at hg0
              exact h.2 hg0
          have hMg : manhattanDist origin g = e0.g_score + 1 := by
            omega
          refine ⟨g, hggoals, ?_, ?_, hnd0, ?_⟩
          · rw [← hpatheq]
            exact hacc1 g (List.mem_singleton.mpr rfl)
          · rw [← hpatheq]
            exact horig1
          · rw [hMg]
            simp only [List.length_singleton] at hlen0
            omega

/-- Among the goals away from the origin (if any) there is one of minimal
Manhattan distance from the origin. -/
theorem exists_min_goal {origin : RoomName} {goals : List RoomName} :
    ∀ (bound : Nat) (g1 : RoomName), g1 ∈ goals → g1 ≠ origin →
      manhattanDist origin g1 ≤ bound →
      ∃ gstar, gstar ∈ goals ∧ gstar ≠ origin ∧
        ∀ g' ∈ goals, g' ≠ origin →
          manhattanDist origin gstar ≤ manhattanDist origin g' := by
  intro bound
  induction bound with
  | zero =>
    intro g1 hg1 hne hb
    exact absurd (manhattanDist_eq_zero (by omega)).symm hne
  | succ bound ih =>
    intro g1 hg1 hne hb
    by_cases hmin : ∀ g' ∈ goals, g' ≠ origin →
        manhattanDist origin g1 ≤ manhattanDist origin g'
    · exact ⟨g1, hg1, hne, hmin⟩
    · push_neg at hmin
      obtain ⟨g', hg', hne', hlt⟩ := hmin
      exact ih g' hg' hne' (by omega)

/-- Walking toward a closest non-origin goal on the full grid stays inside
expandable rooms, so such a goal is reachable through the search's
expansion rule. -/
theorem grid_walk_reachable
    {origin : RoomName} {goals : List RoomName} {gstar : RoomName}
    (hmin : ∀ g' ∈ goals, g' ≠ origin →
      manhattanDist origin gstar ≤ manhattanDist origin g') :
    ∀ (k : Nat) (x : RoomName),
      Reachable origin goals (fun _ => 1) fullExits x →
      manhattanDist x gstar = k →
      manhattanDist origin x + k = manhattanDist origin gstar →
      Reachable origin goals (fun _ => 1) fullExits gstar := by
  intro k
  induction k with
  | zero =>
    intro x hx hM hsum
    cases manhattanDist_eq_zero hM
    exact hx
  | succ k ih =>
    intro x hx hM hsum
    have hexp : Expandable origin goals (fun _ => 1) x := by
      by_cases hxo : x = origin
      · exact Or.inl hxo
      · refine Or.inr ⟨by norm_num [u8MAX], ?_⟩
        intro hxg
        have := hmin x hxg hxo
        omega
    obtain ⟨d, b, hd, hadd, hMb⟩ := @toward_step x gstar (by omega)
    have hxb : Reachable origin goals (fun _ => 1) fullExits b :=
      Reachable.step hx hexp hd hadd
    have htri1 := manhattanDist_triangle origin x b
    have hMxb : manhattanDist x b = 1 :=
      manhattanDist_checked_add (fullExits_cardinal hd) hadd
    have htri2 := manhattanDist_triangle origin b gstar
    exact ih b hxb (by omega) (by omega)

/-- On the unit-cost full grid, a goal set holding any goal other than the
origin guarantees success. -/
theorem grid_succeeds {origin : RoomName} {goals : List RoomName}
    (hex : ∃ g ∈ goals, g ≠ origin) :
    Succeeds origin goals (fun _ => 1) fullExits := by
  obtain ⟨g1, hg1, hne⟩ := hex
  obtain ⟨gstar, hgs, hnes, hmins⟩ :=
    exists_min_goal (manhattanDist origin g1) g1 hg1 hne (Nat.le_refl _)
  have hreach := grid_walk_reachable hmins (manhattanDist origin gstar) origin
    Reachable.origin rfl (by rw [manhattanDist_self]; omega)
  exact (succeeds_iff_canSucceed origin goals (fun _ => 1) fullExits).mpr
    ⟨gstar, hgs, hnes, hreach⟩

/-- C3 counterexample: with origin `(0,0)` on the fully connected unit-cost
grid and goal set `{(0,0)}`, the goal is reachable — it is the origin
itself, reachable even through the search's own expansion rule — yet
`find_route` does not succeed: it exhausts the frontier and returns the
failure value, because a room is only goal-tested when first discovered as
a neighbor and the origin is recorded as visited before the loop starts
(the behavior documented by C7).  This refutes the claim's success clause
as stated; the amendment requires a goal other than the origin. -/
theorem C3_cardinality_counterexample :
    Reachable (mkRoom 0 0) [mkRoom 0 0] (fun _ => 1) fullExits (mkRoom 0 0) ∧
    Fails (mkRoom 0 0) [mkRoom 0 0] (fun _ => 1) fullExits ∧
    ¬ Succeeds (mkRoom 0 0) [mkRoom 0 0] (fun _ => 1) fullExits := by
  have hns : ¬ Succeeds (mkRoom 0 0) [mkRoom 0 0] (fun _ => 1) fullExits := by
    rw [succeeds_iff_canSucceed]
    rintro ⟨g, hg, hne, _⟩
    rw [List.mem_singleton] at hg
    exact hne hg
  exact ⟨Reachable.origin,
    (fails_iff_not_succeeds (mkRoom 0 0) [mkRoom 0 0] (fun _ => 1) fullExits).mpr hns,
    hns⟩

/-- C3 (amended): on the fully connected grid with the cost collaborator
returning 1 for every room, (i) whenever the goal set holds a goal other
than the origin, `find_route` succeeds; (ii) when moreover the origin
itself is not a member of the goal set, every returned path is a
duplicate-free set of exactly `manhattanDist origin g + 1` rooms, where
`g` is the discovered goal, containing both the origin and `g`; (iii) in
particular, origin `(0,0)` with goal set `{(2,0)}` returns success with a
set of exactly 3 rooms containing `(0,0)` and `(2,0)`. -/
theorem C3_grid_cardinality :
    (∀ (origin : RoomName) (goals : List RoomName),
      (∃ g ∈ goals, g ≠ origin) →
      Succeeds origin goals (fun _ => 1) fullExits) ∧
    (∀ (origin : RoomName) (goals : List RoomName) (fuel : Nat) (path : List RoomName),
      goals ≠ [] → origin ∉ goals →
      find_route fuel origin goals (fun _ => 1) fullExits = some (Except.ok path) →
      ∃ g ∈ goals, g ∈ path ∧ origin ∈ path ∧ path.Nodup ∧
        path.length = manhattanDist origin g + 1) ∧
    (find_route 5 (mkRoom 0 0) [mkRoom 2 0] (fun _ => 1) fullExits =
        some (Except.ok [mkRoom 0 0, mkRoom 1 0, mkRoom 2 0]) ∧
      [mkRoom 0 0, mkRoom 1 0, mkRoom 2 0].length = 3 ∧
      ([mkRoom 0 0, mkRoom 1 0, mkRoom 2 0] : List RoomName).Nodup ∧
      mkRoom 0 0 ∈ [mkRoom 0 0, mkRoom 1 0, mkRoom 2 0] ∧
      mkRoom 2 0 ∈ [mkRoom 0 0, mkRoom 1 0, mkRoom 2 0]) := by
  refine ⟨fun origin goals hex => grid_succeeds hex, ?_,
    rfl, rfl, by decide, by decide, by decide⟩
  intro origin goals fuel path hgoals horig hrun
  exact grid_loop_ok_card hgoals horig hrun Relation.ReflTransGen.refl

/-- Witness for C3: the success clause and the cardinality clause applied
to the concrete scenario — origin `(0,0)`, goal set `{(2,0)}`, where the
run returns the three rooms `(0,0)`, `(1,0)`, `(2,0)`. -/
theorem C3_grid_cardinality_witness :
    Succeeds (mkRoom 0 0) [mkRoom 2 0] (fun _ => 1) fullExits ∧
    (∃ g ∈ [mkRoom 2 0],
      g ∈ [mkRoom 0 0, mkRoom 1 0, mkRoom 2 0] ∧
      mkRoom 0 0 ∈ [mkRoom 0 0, mkRoom 1 0, mkRoom 2 0] ∧
      ([mkRoom 0 0, mkRoom 1 0, mkRoom 2 0] : List RoomName).Nodup ∧
      ([mkRoom 0 0, mkRoom 1 0, mkRoom 2 0] : List RoomName).length =
        manhattanDist (mkRoom 0 0) g + 1) :=
  ⟨C3_grid_cardinality.1 (mkRoom 0 0) [mkRoom 2 0]
      ⟨mkRoom 2 0, List.mem_singleton.mpr rfl, by decide⟩,
    C3_grid_cardinality.2.1 (mkRoom 0 0) [mkRoom 2 0] 5
      [mkRoom 0 0, mkRoom 1 0, mkRoom 2 0] (by decide) (by decide) rfl⟩
